import Mathlib

/-!
# Verification of the GitHub issues DLT pipeline core

A shallow embedding of `github_api_pipeline.py`: the validity filter,
the record transformer, the page ingestion loop, the two field
transformers, and the contributor aggregator, together with theorems
settling the specification claims.

JSON values exchanged with the upstream API are modelled by `JVal`.
Numbers are modelled as integers (`Int`): every numeric field the
pipeline touches (`comments`, ids, lengths) is an integer in the
GitHub payload.  Python exceptions relevant to the code
(`AttributeError`, `TypeError`) are modelled by `PyErr`, and fallible
Python expressions by `Except PyErr`.
-/

/-- Model of a JSON / Python value as handled by the pipeline.
Objects are insertion-ordered association lists with distinct keys,
matching Python's `dict`. -/
inductive JVal where
  | null
  | bool (b : Bool)
  | num (n : Int)
  | str (s : String)
  | arr (xs : List JVal)
  | obj (fs : List (String × JVal))

/-- Python exception kinds caught (or raised) by the pipeline code. -/
inductive PyErr where
  | attributeError
  | typeError
deriving DecidableEq, Repr

mutual

def JVal.decEq : (a b : JVal) → Decidable (a = b)
  | .null, .null => isTrue rfl
  | .bool a, .bool b =>
      match Bool.decEq a b with
      | isTrue h => isTrue (by rw [h])
      | isFalse h => isFalse (by intro hh; injection hh; contradiction)
  | .num a, .num b =>
      match Int.decEq a b with
      | isTrue h => isTrue (by rw [h])
      | isFalse h => isFalse (by intro hh; injection hh; contradiction)
  | .str a, .str b =>
      match String.decEq a b with
      | isTrue h => isTrue (by rw [h])
      | isFalse h => isFalse (by intro hh; injection hh; contradiction)
  | .arr a, .arr b =>
      match JVal.decEqList a b with
      | isTrue h => isTrue (by rw [h])
      | isFalse h => isFalse (by intro hh; injection hh; contradiction)
  | .obj a, .obj b =>
      match JVal.decEqFields a b with
      | isTrue h => isTrue (by rw [h])
      | isFalse h => isFalse (by intro hh; injection hh; contradiction)
  | .null, .bool _ | .null, .num _ | .null, .str _ | .null, .arr _ | .null, .obj _
  | .bool _, .null | .bool _, .num _ | .bool _, .str _ | .bool _, .arr _ | .bool _, .obj _
  | .num _, .null | .num _, .bool _ | .num _, .str _ | .num _, .arr _ | .num _, .obj _
  | .str _, .null | .str _, .bool _ | .str _, .num _ | .str _, .arr _ | .str _, .obj _
  | .arr _, .null | .arr _, .bool _ | .arr _, .num _ | .arr _, .str _ | .arr _, .obj _
  | .obj _, .null | .obj _, .bool _ | .obj _, .num _ | .obj _, .str _ | .obj _, .arr _ =>
      isFalse (by intro h; injection h)

def JVal.decEqList : (a b : List JVal) → Decidable (a = b)
  | [], [] => isTrue rfl
  | [], _ :: _ => isFalse (by intro h; injection h)
  | _ :: _, [] => isFalse (by intro h; injection h)
  | x :: xs, y :: ys =>
      match JVal.decEq x y, JVal.decEqList xs ys with
      | isTrue h₁, isTrue h₂ => isTrue (by rw [h₁, h₂])
      | isFalse h₁, _ => isFalse (by intro h; injection h; contradiction)
      | _, isFalse h₂ => isFalse (by intro h; injection h; contradiction)

def JVal.decEqFields : (a b : List (String × JVal)) → Decidable (a = b)
  | [], [] => isTrue rfl
  | [], _ :: _ => isFalse (by intro h; injection h)
  | _ :: _, [] => isFalse (by intro h; injection h)
  | (k, v) :: xs, (k', v') :: ys =>
      match String.decEq k k', JVal.decEq v v', JVal.decEqFields xs ys with
      | isTrue h₁, isTrue h₂, isTrue h₃ => isTrue (by rw [h₁, h₂, h₃])
      | isFalse h₁, _, _ =>
          isFalse (by intro h; injection h with h' _; injection h'; contradiction)
      | _, isFalse h₂, _ =>
          isFalse (by intro h; injection h with h' _; injection h'; contradiction)
      | _, _, isFalse h₃ => isFalse (by intro h; injection h; contradiction)

end

instance : DecidableEq JVal := JVal.decEq

/-- Python truthiness (`bool(v)`) for the modelled values. -/
def truthy : JVal → Bool
  | .null => false
  | .bool b => b
  | .num n => n != 0
  | .str s => s != ""
  | .arr xs => !xs.isEmpty
  | .obj fs => !fs.isEmpty

/-- Python `v == w` restricted to the hashable scalar values the
pipeline uses as dict keys and set elements.  Python identifies
booleans with the integers 0/1; comparisons between containers and
scalars, or between two containers, are modelled as `false` (the
aggregator never successfully stores a container key, see
`pyHashable`). -/
def pyScalarEq : JVal → JVal → Bool
  | .null, .null => true
  | .bool a, .bool b => a == b
  | .bool a, .num n => (if a then (1 : Int) else 0) == n
  | .num n, .bool b => n == (if b then (1 : Int) else 0)
  | .num a, .num b => a == b
  | .str a, .str b => a == b
  | _, _ => false

/-- Python hashability: `None`, booleans, numbers and strings can be
dict keys / set elements; lists and dicts raise a `TypeError`. -/
def pyHashable : JVal → Bool
  | .arr _ => false
  | .obj _ => false
  | _ => true

/-- Key lookup in an object's field list (Python `dict` access). -/
def jget : List (String × JVal) → String → Option JVal
  | [], _ => none
  | (k, v) :: fs, key => if k = key then some v else jget fs key

/-- Python `d.get(key, default)`: the stored value when the key is
present (even when it is `None`), the default otherwise. -/
def jgetD (fs : List (String × JVal)) (key : String) (d : JVal) : JVal :=
  (jget fs key).getD d

/-- Python `d[key] = v`: update in place when the key exists
(keeping its position), append at the end otherwise. -/
def jset : List (String × JVal) → String → JVal → List (String × JVal)
  | [], k, v => [(k, v)]
  | (k', v') :: fs, k, v =>
      if k' = k then (k, v) :: fs else (k', v') :: jset fs k v

/-- Python `v.get(key)` on an arbitrary value: an `AttributeError`
unless `v` is a dict. -/
def pyGetE (v : JVal) (key : String) : Except PyErr JVal :=
  match v with
  | .obj fs => .ok (jgetD fs key .null)
  | _ => .error .attributeError

/-- Python `v == "open"` (equality of an arbitrary value with a string
literal): true exactly for the equal string, false — not an error —
for every other value. -/
def pyEqStr (v : JVal) (s : String) : Bool :=
  match v with
  | .str t => t == s
  | _ => false

/-- Python `v[:100]`: slices strings (by code point, like Lean
`Char`s) and lists; any other value raises a `TypeError`. -/
def pySlice100 : JVal → Except PyErr JVal
  | .str s => .ok (.str (String.mk (s.data.take 100)))
  | .arr xs => .ok (.arr (xs.take 100))
  | _ => .error .typeError

/-- Python `len(v)`: defined on strings (code points), lists and
dicts; a `TypeError` otherwise. -/
def pyLen : JVal → Except PyErr Nat
  | .str s => .ok s.data.length
  | .arr xs => .ok xs.length
  | .obj fs => .ok fs.length
  | _ => .error .typeError

/-- The list comprehension
`[label.get("name") for label in labels if label.get("name")]`
applied to the elements of a list: each element must be a dict
(otherwise `AttributeError`); names that are falsy are dropped. -/
def labelNamesList : List JVal → Except PyErr (List JVal)
  | [] => .ok []
  | .obj g :: ls => do
      let rest ← labelNamesList ls
      let v := jgetD g "name" .null
      pure (if truthy v then v :: rest else rest)
  | _ :: _ => .error .attributeError

/-- The same comprehension applied to the raw `labels` value.
Iterating an empty string or empty dict yields nothing; iterating a
non-empty string or dict yields strings, whose `.get` raises an
`AttributeError`; non-iterable values raise a `TypeError`. -/
def pyLabelNames : JVal → Except PyErr (List JVal)
  | .arr xs => labelNamesList xs
  | .str s => if s = "" then .ok [] else .error .attributeError
  | .obj fs => if fs.isEmpty then .ok [] else .error .attributeError
  | _ => .error .typeError

/-- `filter_valid_issues`, body inside the `try` block. -/
def filter_valid_issues_core (item : JVal) : Except PyErr Bool :=
  match item with
  | .obj fs =>
      if truthy (jgetD fs "pull_request" .null) then .ok false
      else
        let user := jgetD fs "user" .null
        if !truthy user then .ok false
        else
          match user with
          | .obj g =>
              if !truthy (jgetD g "login" .null) then .ok false
              else if !pyEqStr (jgetD fs "state" .null) "open" then .ok false
              else .ok true
          | _ => .error .attributeError
  | _ => .error .attributeError

/-- `filter_valid_issues`: the `try`/`except` wrapper turns any
`AttributeError`/`TypeError` into `False`. -/
def filter_valid_issues (item : JVal) : Bool :=
  match filter_valid_issues_core item with
  | .ok b => b
  | .error _ => false

/-- The flattened record produced by `transform_issue_data`.  Field
values keep the raw `JVal` the code stores; `body_length` is a `Nat`
(Python `len`) and `has_assignee` a `Bool` (Python `bool(...)`), as
in the source. -/
structure NormalizedIssue where
  issue_id : JVal
  issue_number : JVal
  title : JVal
  state : JVal
  created_at : JVal
  updated_at : JVal
  comments_count : JVal
  labels : List JVal
  contributor_login : JVal
  contributor_id : JVal
  contributor_type : JVal
  contributor_url : JVal
  contributor_avatar : JVal
  body_length : Nat
  has_assignee : Bool
  milestone : JVal

/-- `transform_issue_data`, body inside the `try` block.  The five
`user.get(...)` reads require `user = item.get("user", {})` to be a
dict; `item.get("body") or ""` measures the body when truthy and the
empty string otherwise; the milestone title is read only when the
milestone is truthy. -/
def transform_issue_data_core (item : JVal) : Except PyErr NormalizedIssue :=
  match item with
  | .obj fs =>
      match pySlice100 (jgetD fs "title" (.str "")) with
      | .error e => .error e
      | .ok title =>
      match pyLabelNames (jgetD fs "labels" (.arr [])) with
      | .error e => .error e
      | .ok labels =>
      match jgetD fs "user" (.obj []) with
      | .obj g =>
          let bodyv := jgetD fs "body" .null
          match pyLen (if truthy bodyv then bodyv else .str "") with
          | .error e => .error e
          | .ok blen =>
          let m := jgetD fs "milestone" .null
          match (if truthy m then pyGetE m "title" else .ok .null) with
          | .error e => .error e
          | .ok milestone =>
              .ok {
                issue_id := jgetD fs "id" .null
                issue_number := jgetD fs "number" .null
                title := title
                state := jgetD fs "state" .null
                created_at := jgetD fs "created_at" .null
                updated_at := jgetD fs "updated_at" .null
                comments_count := jgetD fs "comments" (.num 0)
                labels := labels
                contributor_login := jgetD g "login" .null
                contributor_id := jgetD g "id" .null
                contributor_type := jgetD g "type" .null
                contributor_url := jgetD g "html_url" .null
                contributor_avatar := jgetD g "avatar_url" .null
                body_length := blen
                has_assignee := truthy (jgetD fs "assignee" .null)
                milestone := milestone }
      | _ => .error .attributeError
  | _ => .error .attributeError

/-- `transform_issue_data`: the `try`/`except` wrapper returns `None`
(here `none`) on any `AttributeError`/`TypeError`. -/
def transform_issue_data (item : JVal) : Option NormalizedIssue :=
  match transform_issue_data_core item with
  | .ok r => some r
  | .error _ => none

/-- The per-page, per-item loop of `github_api_resource`: filter,
transform, and yield when the transform produced a (non-empty, hence
truthy) dict.  Parameterised by the pages the paginator returns. -/
def github_api_resource (pages : List (List JVal)) : List NormalizedIssue :=
  (pages.map (fun page => page.filterMap (fun item =>
    if filter_valid_issues item then transform_issue_data item else none))).flatten

/-- Python `str.strip()`.  Lean's `trim` removes the ASCII whitespace
that occurs in the pipeline's data. -/
def pyStrip (s : String) : String := s.trim

/-- Python `str.capitalize()`: first character uppercased, the rest
lowercased. -/
def pyCapitalize (s : String) : String :=
  match s.data with
  | [] => ""
  | c :: cs => String.mk (c.toUpper :: cs.map Char.toLower)

/-- The `normalize_title` transformer: reads `title` (default `""`),
strips and capitalizes it — an `AttributeError` when the value is not
a string — and stores the result under `normalized_title`. -/
def normalize_title (issue : JVal) : Except PyErr JVal :=
  match issue with
  | .obj fs =>
      match jgetD fs "title" (.str "") with
      | .str s =>
          .ok (.obj (jset fs "normalized_title" (.str (pyCapitalize (pyStrip s)))))
      | _ => .error .attributeError
  | _ => .error .attributeError

/-- The `enrich_with_label_counts` transformer: stores
`len(labels)` (default `[]`) under `label_count`. -/
def enrich_with_label_counts (issue : JVal) : Except PyErr JVal :=
  match issue with
  | .obj fs =>
      match pyLen (jgetD fs "labels" (.arr [])) with
      | .ok n => .ok (.obj (jset fs "label_count" (.num n)))
      | .error e => .error e
  | _ => .error .attributeError

/-- Lexicographic strict comparison of two strings' code-point
sequences — Python's `str < str`. -/
def ltCh : List Char → List Char → Bool
  | [], [] => false
  | [], _ :: _ => true
  | _ :: _, [] => false
  | c :: cs, d :: ds => if c < d then true else if d < c then false else ltCh cs ds

/-- Python `a > b` for the scalar values the aggregator's
`updated_at` comparison can involve: strings compare
lexicographically by code point, numbers and booleans numerically;
mixed or container comparisons raise a `TypeError`.  (Python would
compare two lists elementwise; no theorem below compares container
timestamps, so that case is folded into the error case.) -/
def pyGt : JVal → JVal → Except PyErr Bool
  | .str a, .str b => .ok (ltCh b.data a.data)
  | .num a, .num b => .ok (decide (b < a))
  | .bool a, .bool b => .ok (decide ((if b then (1 : Int) else 0) < (if a then 1 else 0)))
  | .bool a, .num b => .ok (decide (b < (if a then (1 : Int) else 0)))
  | .num a, .bool b => .ok (decide ((if b then (1 : Int) else 0) < a))
  | _, _ => .error .typeError

/-- Python `n + v` for an integer accumulator `n`: integers add,
booleans count as 0/1, any other value raises a `TypeError`. -/
def pyAddInt (a : Int) : JVal → Except PyErr Int
  | .num n => .ok (a + n)
  | .bool b => .ok (a + if b then 1 else 0)
  | _ => .error .typeError

/-- The per-contributor running statistics dict created by
`setdefault` in `top_contributors_resource`.  `labels_used` models
the Python set as a duplicate-free list (membership up to Python
`==`, i.e. `pyScalarEq`). -/
structure ContribAcc where
  contributor_login : JVal
  contributor_id : JVal
  contributor_type : JVal
  contributor_url : JVal
  contributor_avatar : JVal
  total_issues : Nat
  total_comments : Int
  total_body_length : Nat
  issues_with_assignee : Nat
  issues_with_milestone : Nat
  labels_used : List JVal
  latest_activity : JVal

/-- The fresh accumulator `setdefault` installs on a login's first
issue: contributor fields and `latest_activity` from that issue, all
counters zero. -/
def initAcc (issue : NormalizedIssue) : ContribAcc :=
  { contributor_login := issue.contributor_login
    contributor_id := issue.contributor_id
    contributor_type := issue.contributor_type
    contributor_url := issue.contributor_url
    contributor_avatar := issue.contributor_avatar
    total_issues := 0
    total_comments := 0
    total_body_length := 0
    issues_with_assignee := 0
    issues_with_milestone := 0
    labels_used := []
    latest_activity := issue.updated_at }

/-- `for label in issue.get("labels", []): if label:
labels_used.add(label)` — truthy labels are added to the set; adding
an unhashable value raises a `TypeError`. -/
def addLabels : List JVal → List JVal → Except PyErr (List JVal)
  | used, [] => .ok used
  | used, l :: ls =>
      if truthy l then
        if pyHashable l then
          addLabels (if used.any (fun u => pyScalarEq u l) then used else used ++ [l]) ls
        else .error .typeError
      else addLabels used ls

/-- `if updated_at and updated_at > stats["latest_activity"]:` — the
running-maximum update of `latest_activity`. -/
def latestUpd (latest : JVal) (issue : NormalizedIssue) : Except PyErr JVal :=
  if truthy issue.updated_at then
    match pyGt issue.updated_at latest with
    | .error e => .error e
    | .ok b => .ok (if b then issue.updated_at else latest)
  else .ok latest

/-- One accumulation step of the aggregator's loop body on an
existing (or freshly initialised) accumulator. -/
def updAcc (acc : ContribAcc) (issue : NormalizedIssue) : Except PyErr ContribAcc :=
  match pyAddInt acc.total_comments issue.comments_count with
  | .error e => .error e
  | .ok tc =>
  match addLabels acc.labels_used issue.labels with
  | .error e => .error e
  | .ok lu =>
  match latestUpd acc.latest_activity issue with
  | .error e => .error e
  | .ok la =>
      .ok { acc with
        total_issues := acc.total_issues + 1
        total_comments := tc
        total_body_length := acc.total_body_length + issue.body_length
        issues_with_assignee :=
          acc.issues_with_assignee + (if issue.has_assignee then 1 else 0)
        issues_with_milestone :=
          acc.issues_with_milestone + (if truthy issue.milestone then 1 else 0)
        labels_used := lu
        latest_activity := la }

/-- Lookup in the `contributor_stats` dict, keyed by login under
Python `==`. -/
def lookupAcc : List (JVal × ContribAcc) → JVal → Option ContribAcc
  | [], _ => none
  | (k, a) :: m, login => if pyScalarEq k login then some a else lookupAcc m login

/-- In-place update of an existing key of `contributor_stats`
(insertion position preserved, as for a Python dict). -/
def replaceAcc : List (JVal × ContribAcc) → JVal → ContribAcc → List (JVal × ContribAcc)
  | [], _, _ => []
  | (k, a) :: m, login, acc =>
      if pyScalarEq k login then (k, acc) :: m else (k, a) :: replaceAcc m login acc

/-- One iteration of the aggregator's `for issue in ...` loop:
skip issues with a falsy login, `setdefault` the accumulator (a
`TypeError` for unhashable logins), then run the accumulation step. -/
def aggStep (m : List (JVal × ContribAcc)) (issue : NormalizedIssue) :
    Except PyErr (List (JVal × ContribAcc)) :=
  let login := issue.contributor_login
  if !truthy login then .ok m
  else if !pyHashable login then .error .typeError
  else
    match lookupAcc m login with
    | some acc =>
        match updAcc acc issue with
        | .error e => .error e
        | .ok acc' => .ok (replaceAcc m login acc')
    | none =>
        match updAcc (initAcc issue) issue with
        | .error e => .error e
        | .ok acc' => .ok (m ++ [(login, acc')])

/-- The whole accumulation pass of `top_contributors_resource` over
the normalized-issue stream. -/
def aggregate (issues : List NormalizedIssue) : Except PyErr (List (JVal × ContribAcc)) :=
  issues.foldlM aggStep []

/-- The finalized per-contributor record yielded by
`top_contributors_resource`: the accumulator minus
`total_body_length`/`labels_used`, plus the derived fields. -/
structure ContributorSummary where
  contributor_login : JVal
  contributor_id : JVal
  contributor_type : JVal
  contributor_url : JVal
  contributor_avatar : JVal
  total_issues : Nat
  total_comments : Int
  issues_with_assignee : Nat
  issues_with_milestone : Nat
  latest_activity : JVal
  avg_body_length : Nat
  labels_count : Nat
  unique_labels : List JVal
  contribution_score : ℚ

/-- The finalization step run on each accumulator before yielding.
The score weights issues by 2, comments by 1 and the two metadata
flags by 0.5; `ℚ` models Python's float arithmetic, which is exact on
these half-integer values. -/
def finalizeAcc (acc : ContribAcc) : ContributorSummary :=
  { contributor_login := acc.contributor_login
    contributor_id := acc.contributor_id
    contributor_type := acc.contributor_type
    contributor_url := acc.contributor_url
    contributor_avatar := acc.contributor_avatar
    total_issues := acc.total_issues
    total_comments := acc.total_comments
    issues_with_assignee := acc.issues_with_assignee
    issues_with_milestone := acc.issues_with_milestone
    latest_activity := acc.latest_activity
    avg_body_length :=
      if acc.total_body_length > 0 then acc.total_body_length / acc.total_issues else 0
    labels_count := acc.labels_used.length
    unique_labels := acc.labels_used
    contribution_score :=
      (acc.total_issues : ℚ) * 2 + (acc.total_comments : ℚ) * 1 +
        (acc.issues_with_assignee : ℚ) * (0.5 : ℚ) +
        (acc.issues_with_milestone : ℚ) * (0.5 : ℚ) }

/-- `top_contributors_resource`, parameterised by the
normalized-issue stream its internal ingestion pass produces: the
accumulation loop followed by finalization of every accumulator with
a positive issue count, in insertion order. -/
def top_contributors_resource (issues : List NormalizedIssue) :
    Except PyErr (List ContributorSummary) :=
  match aggregate issues with
  | .error e => .error e
  | .ok m => .ok ((m.filter (fun p => p.2.total_issues > 0)).map (fun p => finalizeAcc p.2))

/-- The four per-contributor statistics named by the order-independence
property: `total_issues`, `total_comments`, `labels_count`,
`contribution_score`. -/
def statsQuad (s : ContributorSummary) : Nat × Int × Nat × ℚ :=
  (s.total_issues, s.total_comments, s.labels_count, s.contribution_score)

/-- What a consumer observes for one login: `none` when the
aggregation pass raised or never saw the login, otherwise that
contributor's four statistics. -/
def summaryView (issues : List NormalizedIssue) (login : JVal) :
    Option (Nat × Int × Nat × ℚ) :=
  match top_contributors_resource issues with
  | .error _ => none
  | .ok ss => (ss.find? (fun s => pyScalarEq s.contributor_login login)).map statsQuad

/-! ## Inversion lemmas for the filter -/

/-- The validity predicate as §4.1 of the specification words it
(claim C1): `pull_request` absent **or null**, `user` an object with
a truthy `login`, `state` exactly `"open"`. -/
def validitySpecC1 (item : JVal) : Bool :=
  match item with
  | .obj fs =>
      (match jget fs "pull_request" with
       | none => true
       | some .null => true
       | some _ => false) &&
      (match jgetD fs "user" .null with
       | .obj g => truthy (jgetD g "login" .null)
       | _ => false) &&
      pyEqStr (jgetD fs "state" .null) "open"
  | _ => false

/-- The validity predicate the code actually computes: as
`validitySpecC1`, except that a present-but-falsy `pull_request`
(for example an empty object) is also accepted. -/
def validityAmended (item : JVal) : Bool :=
  match item with
  | .obj fs =>
      !truthy (jgetD fs "pull_request" .null) &&
      (match jgetD fs "user" .null with
       | .obj g => truthy (jgetD g "login" .null)
       | _ => false) &&
      pyEqStr (jgetD fs "state" .null) "open"
  | _ => false

theorem filter_eq_amended (item : JVal) :
    filter_valid_issues item = validityAmended item := by
  cases item with
  | null => rfl
  | bool b => rfl
  | num n => rfl
  | str s => rfl
  | arr xs => rfl
  | obj fs =>
      simp only [filter_valid_issues, filter_valid_issues_core, validityAmended]
      cases hpr : truthy (jgetD fs "pull_request" JVal.null) with
      | true => simp [hpr]
      | false =>
          simp only [hpr, Bool.false_eq_true, if_false, Bool.not_false, Bool.true_and]
          cases hu : jgetD fs "user" JVal.null with
          | null => simp [truthy]
          | bool b => cases b <;> simp [truthy]
          | num n => by_cases hn : (n : Int) = 0 <;> simp [truthy, hn]
          | str s => by_cases hs : s = "" <;> simp [truthy, hs]
          | arr xs => cases xs <;> simp [truthy, List.isEmpty]
          | obj g =>
              cases g with
              | nil => simp [truthy, List.isEmpty, jgetD, jget]
              | cons p g' =>
                  have htu : truthy (JVal.obj (p :: g')) = true := rfl
                  simp only [htu, Bool.not_true, Bool.false_eq_true, if_false]
                  cases hlg : truthy (jgetD (p :: g') "login" JVal.null) with
                  | false => simp [hlg]
                  | true =>
                      simp only [hlg, Bool.not_true, Bool.false_eq_true, if_false,
                        Bool.true_and]
                      cases hst : pyEqStr (jgetD fs "state" JVal.null) "open" <;>
                        simp [hst]

/-- A record whose `pull_request` is present but falsy (an empty
object), with a valid user and open state. -/
def c1item : JVal :=
  .obj [("pull_request", .obj []),
        ("user", .obj [("login", .str "octocat")]),
        ("state", .str "open")]

/-- C1 (counterexample): the filter accepts a record that carries a
present, non-null `pull_request` — the empty object is present and
non-null but falsy, so the code's truthiness test does not reject it,
contradicting the claimed "absent or null" characterisation. -/
theorem C1_counterexample_falsy_pull_request :
    filter_valid_issues c1item = true ∧
    validitySpecC1 c1item = false ∧
    jget [("pull_request", JVal.obj []),
          ("user", JVal.obj [("login", JVal.str "octocat")]),
          ("state", JVal.str "open")] "pull_request" = some (JVal.obj []) :=
  ⟨rfl, rfl, rfl⟩

/-- C1 (amended): `filter_valid_issues` returns true iff the record
is a mapping whose `pull_request` is absent **or falsy** (null,
false, 0, empty string/sequence/mapping), whose `user` is an object
with a truthy `login`, and whose `state` is exactly the string
`"open"` — the rejection rules short-circuit in that order. -/
theorem C1_filter_characterisation (item : JVal) :
    filter_valid_issues item = validityAmended item :=
  filter_eq_amended item

/-- C3: the filter never propagates an exception — a `null` record, an
empty mapping, any input on which the guarded body raises, and in
particular any record whose `user` value is a string, all yield
`false`. -/
theorem C3_filter_never_raises :
    filter_valid_issues JVal.null = false ∧
    filter_valid_issues (JVal.obj []) = false ∧
    (∀ item e, filter_valid_issues_core item = .error e →
      filter_valid_issues item = false) ∧
    (∀ fs s, jget fs "user" = some (JVal.str s) →
      filter_valid_issues (JVal.obj fs) = false) := by
  refine ⟨rfl, rfl, ?_, ?_⟩
  · intro item e h
    simp [filter_valid_issues, h]
  · intro fs s h
    have hu : jgetD fs "user" JVal.null = JVal.str s := by simp [jgetD, h]
    simp only [filter_valid_issues, filter_valid_issues_core, hu]
    cases hpr : truthy (jgetD fs "pull_request" JVal.null) with
    | true => simp [hpr]
    | false =>
        by_cases hs : s = "" <;> simp [hpr, truthy, hs]

/-- Closed witness for C3: a non-mapping record (the body raises an
`AttributeError`) and a record whose `user` is a non-empty string
both filter to `false`. -/
theorem C3_witness :
    filter_valid_issues (JVal.str "oops") = false ∧
    filter_valid_issues
      (JVal.obj [("pull_request", JVal.null), ("user", JVal.str "boom"),
                 ("state", JVal.str "open")]) = false :=
  ⟨C3_filter_never_raises.2.2.1 (JVal.str "oops") PyErr.attributeError rfl,
   C3_filter_never_raises.2.2.2
     [("pull_request", JVal.null), ("user", JVal.str "boom"),
      ("state", JVal.str "open")] "boom" rfl⟩

/-! ## Inversion lemma for the transformer -/

theorem transform_ok_inv {fs : List (String × JVal)} {res : NormalizedIssue}
    (h : transform_issue_data (.obj fs) = some res) :
    ∃ g, jgetD fs "user" (.obj []) = JVal.obj g ∧
      pySlice100 (jgetD fs "title" (.str "")) = .ok res.title ∧
      pyLabelNames (jgetD fs "labels" (.arr [])) = .ok res.labels ∧
      res.state = jgetD fs "state" .null ∧
      res.updated_at = jgetD fs "updated_at" .null ∧
      res.comments_count = jgetD fs "comments" (.num 0) ∧
      res.contributor_login = jgetD g "login" .null := by
  simp only [transform_issue_data, transform_issue_data_core] at h
  cases h1 : pySlice100 (jgetD fs "title" (.str "")) <;> rw [h1] at h
  case error => simp at h
  case ok title =>
  cases h2 : pyLabelNames (jgetD fs "labels" (.arr [])) <;> rw [h2] at h
  case error => simp at h
  case ok labels =>
  cases h3 : jgetD fs "user" (.obj []) <;> rw [h3] at h <;> try simp at h
  case obj g =>
  cases h4 : pyLen (if truthy (jgetD fs "body" JVal.null) = true
      then jgetD fs "body" JVal.null else JVal.str "") <;> rw [h4] at h
  case error => simp at h
  case ok blen =>
  cases h5 : (if truthy (jgetD fs "milestone" JVal.null) = true
      then pyGetE (jgetD fs "milestone" JVal.null) "title"
      else .ok JVal.null) <;> rw [h5] at h
  case error => simp at h
  case ok milestone =>
  simp only [Option.some.injEq] at h
  subst h
  exact ⟨g, rfl, rfl, rfl, rfl, rfl, rfl, rfl⟩

/-- C2 (counterexample): a record whose `comments` key is present but
null transforms successfully, and its `comments_count` is null — not
0 — because `item.get("comments", 0)` only defaults on an absent
key. -/
theorem C2_counterexample_null_comments :
    jget [("comments", JVal.null)] "comments" = some JVal.null ∧
    (transform_issue_data (JVal.obj [("comments", JVal.null)])).map
      (fun r => r.comments_count) = some JVal.null ∧
    JVal.null ≠ JVal.num 0 :=
  ⟨rfl, rfl, fun h => JVal.noConfusion h⟩

/-- C2 (amended): on success, `comments_count` is the raw `comments`
value whenever the key is present — including a present null — and
`num 0` exactly when the key is absent.  It is therefore null
precisely when `comments` is stored as null. -/
theorem C2_comments_count {fs : List (String × JVal)} {res : NormalizedIssue}
    (h : transform_issue_data (.obj fs) = some res) :
    res.comments_count = jgetD fs "comments" (JVal.num 0) := by
  obtain ⟨g, -, -, -, -, -, hc, -⟩ := transform_ok_inv h
  exact hc

/-- Closed witness for C2 at a record with three comments. -/
theorem C2_witness :
    (transform_issue_data (JVal.obj [("comments", JVal.num 3)])).map
      (fun r => r.comments_count) = some (JVal.num 3) := by
  cases hx : transform_issue_data (JVal.obj [("comments", JVal.num 3)]) with
  | none =>
      have hs : (transform_issue_data (JVal.obj [("comments", JVal.num 3)])).isSome
          = true := rfl
      rw [hx] at hs; simp at hs
  | some res =>
      have h := C2_comments_count hx
      simp [h, jgetD, jget]

/-- Length of a sliceable value: code points of a string, entries of a
sequence. -/
def jvalLen : JVal → Nat
  | .str s => s.data.length
  | .arr xs => xs.length
  | _ => 0

theorem pySlice100_len {v w : JVal} (h : pySlice100 v = .ok w) :
    jvalLen w ≤ 100 := by
  cases v <;> simp [pySlice100] at h <;> rw [← h] <;>
    simp [jvalLen, List.length_take]

/-- C8: whenever the transform succeeds, the emitted `title` is the
raw title sliced to its first 100 items — for a string title, its
first 100 characters, with an absent title read as the empty string —
so its length never exceeds 100. -/
theorem C8_title_truncated {item : JVal} {res : NormalizedIssue}
    (h : transform_issue_data item = some res) :
    jvalLen res.title ≤ 100 ∧
    (∀ fs, item = JVal.obj fs →
      pySlice100 (jgetD fs "title" (JVal.str "")) = .ok res.title ∧
      (∀ t, jgetD fs "title" (JVal.str "") = JVal.str t →
        res.title = JVal.str (String.mk (t.data.take 100)))) := by
  cases item with
  | obj fs =>
      obtain ⟨g, -, ht, -⟩ := transform_ok_inv h
      refine ⟨pySlice100_len ht, ?_⟩
      rintro fs' hfs'
      injection hfs' with hfs'
      subst hfs'
      refine ⟨ht, ?_⟩
      intro t hts
      rw [hts] at ht
      simp [pySlice100] at ht
      exact ht.symm
  | null => simp [transform_issue_data, transform_issue_data_core] at h
  | bool b => simp [transform_issue_data, transform_issue_data_core] at h
  | num n => simp [transform_issue_data, transform_issue_data_core] at h
  | str s => simp [transform_issue_data, transform_issue_data_core] at h
  | arr xs => simp [transform_issue_data, transform_issue_data_core] at h

/-- Closed witness for C8 on a 103-character title. -/
theorem C8_witness :
    (transform_issue_data (JVal.obj [("title",
        JVal.str "aaaaaaaaaaaaaaaaaaaaaaaaaaaaaaaaaaaaaaaaaaaaaaaaaaaaaaaaaaaaaaaaaaaaaaaaaaaaaaaaaaaaaaaaaaaaaaaaaaabbb")])).map
      (fun r => decide (jvalLen r.title ≤ 100)) = some true := by
  cases hx : transform_issue_data (JVal.obj [("title",
      JVal.str "aaaaaaaaaaaaaaaaaaaaaaaaaaaaaaaaaaaaaaaaaaaaaaaaaaaaaaaaaaaaaaaaaaaaaaaaaaaaaaaaaaaaaaaaaaaaaaaaaaabbb")]) with
  | none =>
      have hs : (transform_issue_data (JVal.obj [("title",
          JVal.str "aaaaaaaaaaaaaaaaaaaaaaaaaaaaaaaaaaaaaaaaaaaaaaaaaaaaaaaaaaaaaaaaaaaaaaaaaaaaaaaaaaaaaaaaaaaaaaaaaaabbb")])).isSome = true := rfl
      rw [hx] at hs; simp at hs
  | some res =>
      have h := (C8_title_truncated hx).1
      simp [h]

/-- Total name extraction from one raw label entry (`label.get("name")`
restricted to the dict entries on which the comprehension succeeds). -/
def nameOf : JVal → JVal
  | .obj g => jgetD g "name" .null
  | _ => .null

theorem labelNamesList_ok_spec {xs : List JVal} {out : List JVal}
    (h : labelNamesList xs = .ok out) :
    out = (xs.map nameOf).filter truthy := by
  induction xs generalizing out with
  | nil =>
      simp only [labelNamesList, Except.ok.injEq] at h
      simp [← h]
  | cons x ls ih =>
      cases x with
      | null => simp [labelNamesList] at h
      | bool b => simp [labelNamesList] at h
      | num n => simp [labelNamesList] at h
      | str s => simp [labelNamesList] at h
      | arr a => simp [labelNamesList] at h
      | obj g =>
        simp only [labelNamesList] at h
        cases hr : labelNamesList ls with
        | error e => rw [hr] at h; simp [Except.bind] at h
        | ok rest =>
            rw [hr] at h
            have h2 : (Except.ok
                (if truthy (jgetD g "name" JVal.null) = true
                 then jgetD g "name" JVal.null :: rest else rest) :
                  Except PyErr (List JVal)) =
                Except.ok out := h
            injection h2 with h2
            rw [← h2, ih hr]
            by_cases hv : truthy (jgetD g "name" JVal.null) = true <;>
              simp [hv, nameOf, List.filter]

theorem labelNamesList_ok_truthy {xs : List JVal} {out : List JVal}
    (h : labelNamesList xs = .ok out) :
    ∀ v ∈ out, truthy v = true := by
  intro v hv
  rw [labelNamesList_ok_spec h] at hv
  exact (List.mem_filter.mp hv).2

theorem pyLabelNames_ok_truthy {raw : JVal} {out : List JVal}
    (h : pyLabelNames raw = .ok out) :
    ∀ v ∈ out, truthy v = true := by
  cases raw <;> simp only [pyLabelNames] at h
  case arr xs => exact labelNamesList_ok_truthy h
  case str s =>
      by_cases hs : s = ""
      · rw [if_pos hs] at h
        injection h with h
        simp [← h]
      · rw [if_neg hs] at h; exact absurd h (by simp)
  case obj fs =>
      by_cases hf : fs.isEmpty = true
      · rw [if_pos hf] at h
        injection h with h
        simp [← h]
      · rw [if_neg hf] at h; exact absurd h (by simp)
  all_goals exact absurd h (by simp)

/-- C9: on success, the emitted labels are the `name`s of the raw
label entries, in their original order, entries with a falsy or
missing name dropped; consequently no emitted label is null or the
empty string. -/
theorem C9_labels {fs : List (String × JVal)} {res : NormalizedIssue}
    (h : transform_issue_data (.obj fs) = some res) :
    (∀ xs, jgetD fs "labels" (JVal.arr []) = JVal.arr xs →
      res.labels = (xs.map nameOf).filter truthy) ∧
    (∀ v ∈ res.labels, truthy v = true) ∧
    (∀ v ∈ res.labels, v ≠ JVal.null ∧ v ≠ JVal.str "") := by
  obtain ⟨g, -, -, hl, -⟩ := transform_ok_inv h
  have htr : ∀ v ∈ res.labels, truthy v = true := pyLabelNames_ok_truthy hl
  refine ⟨?_, htr, ?_⟩
  · intro xs hxs
    rw [hxs] at hl
    exact labelNamesList_ok_spec hl
  · intro v hv
    have := htr v hv
    constructor
    · rintro rfl; simp [truthy] at this
    · rintro rfl; simp [truthy] at this

/-- Closed witness for C9: one good label, one label with a null
name, one with an empty name, one with no name field. -/
theorem C9_witness :
    (transform_issue_data (JVal.obj [("labels", JVal.arr
        [JVal.obj [("name", JVal.str "bug")],
         JVal.obj [("name", JVal.null)],
         JVal.obj [("name", JVal.str "")],
         JVal.obj []])])).map (fun r => r.labels) = some [JVal.str "bug"] := by
  cases hx : transform_issue_data (JVal.obj [("labels", JVal.arr
      [JVal.obj [("name", JVal.str "bug")],
       JVal.obj [("name", JVal.null)],
       JVal.obj [("name", JVal.str "")],
       JVal.obj []])]) with
  | none =>
      have hs : (transform_issue_data (JVal.obj [("labels", JVal.arr
          [JVal.obj [("name", JVal.str "bug")],
           JVal.obj [("name", JVal.null)],
           JVal.obj [("name", JVal.str "")],
           JVal.obj []])])).isSome = true := rfl
      rw [hx] at hs; simp at hs
  | some res =>
      have h := (C9_labels hx).1
        [JVal.obj [("name", JVal.str "bug")],
         JVal.obj [("name", JVal.null)],
         JVal.obj [("name", JVal.str "")],
         JVal.obj []] rfl
      simp [h, nameOf, jgetD, jget, truthy, List.filter]

theorem validity_true_inv {item : JVal} (h : validityAmended item = true) :
    ∃ fs g, item = JVal.obj fs ∧ jget fs "user" = some (JVal.obj g) ∧
      truthy (jgetD g "login" JVal.null) = true ∧
      jgetD fs "state" JVal.null = JVal.str "open" := by
  cases item <;> simp only [validityAmended] at h
  case obj fs =>
    simp only [Bool.and_eq_true] at h
    obtain ⟨⟨-, h2⟩, h3⟩ := h
    cases hu : jgetD fs "user" JVal.null <;> rw [hu] at h2 <;> simp at h2
    case obj g =>
      have hu' : jget fs "user" = some (JVal.obj g) := by
        cases hj : jget fs "user" with
        | none => rw [jgetD, hj] at hu; simp at hu
        | some u => rw [jgetD, hj] at hu; simp at hu; rw [hu]
      refine ⟨fs, g, rfl, hu', h2, ?_⟩
      cases hst : jgetD fs "state" JVal.null <;> rw [hst] at h3 <;>
        simp [pyEqStr] at h3
      case str t => rw [h3]
  all_goals exact absurd h (by simp)

/-- C4: every record emitted by the page ingestion loop — one that
passed `filter_valid_issues` and on which `transform_issue_data`
succeeded — has `state` exactly `"open"` and a truthy (hence neither
null nor empty) `contributor_login`. -/
theorem C4_emitted_invariants (pages : List (List JVal)) (res : NormalizedIssue)
    (h : res ∈ github_api_resource pages) :
    res.state = JVal.str "open" ∧ truthy res.contributor_login = true ∧
    res.contributor_login ≠ JVal.null ∧ res.contributor_login ≠ JVal.str "" := by
  simp only [github_api_resource, List.mem_flatten, List.mem_map] at h
  obtain ⟨-, ⟨page, -, rfl⟩, hres⟩ := h
  rw [List.mem_filterMap] at hres
  obtain ⟨item, -, hit⟩ := hres
  by_cases hf : filter_valid_issues item = true
  swap
  · rw [if_neg (by simpa using hf)] at hit; exact absurd hit (by simp)
  rw [if_pos hf] at hit
  rw [filter_eq_amended] at hf
  obtain ⟨fs, g, rfl, hu, hlg, hst⟩ := validity_true_inv hf
  obtain ⟨g', hg', -, -, hstate, -, -, hlogin⟩ := transform_ok_inv hit
  have hgg : g' = g := by
    rw [jgetD, hu] at hg'
    simp at hg'
    exact hg'.symm
  subst hgg
  rw [hlogin]
  refine ⟨by rw [hstate, hst], hlg, ?_, ?_⟩
  · intro hnull; rw [hnull] at hlg; simp [truthy] at hlg
  · intro hemp; rw [hemp] at hlg; simp [truthy] at hlg

instance : Inhabited JVal := ⟨.null⟩

instance : Inhabited NormalizedIssue :=
  ⟨{ issue_id := .null, issue_number := .null, title := .null, state := .null,
     created_at := .null, updated_at := .null, comments_count := .null,
     labels := [], contributor_login := .null, contributor_id := .null,
     contributor_type := .null, contributor_url := .null,
     contributor_avatar := .null, body_length := 0, has_assignee := false,
     milestone := .null }⟩

/-- A well-formed open raw issue used by the closed witnesses. -/
def c4item : JVal :=
  .obj [("user", .obj [("login", .str "octocat")]), ("state", .str "open")]

/-- Closed witness for C4 on a one-page, one-record ingestion run. -/
theorem C4_witness :
    ((github_api_resource [[c4item]]).head!).state = JVal.str "open" ∧
    truthy ((github_api_resource [[c4item]]).head!).contributor_login = true := by
  cases hx : github_api_resource [[c4item]] with
  | nil =>
      have hlen : (github_api_resource [[c4item]]).length = 1 := rfl
      rw [hx] at hlen; simp at hlen
  | cons r rest =>
      have hm : r ∈ github_api_resource [[c4item]] := by
        rw [hx]; exact List.mem_cons_self r rest
      have h := C4_emitted_invariants [[c4item]] r hm
      exact ⟨h.1, h.2.1⟩

theorem jget_jset_self (fs : List (String × JVal)) (k : String) (v : JVal) :
    jget (jset fs k v) k = some v := by
  induction fs with
  | nil => simp [jset, jget]
  | cons p fs ih =>
      obtain ⟨a, b⟩ := p
      by_cases hak : a = k
      · simp [jset, hak, jget]
      · simp [jset, hak, jget, ih]

theorem jget_jset_ne (fs : List (String × JVal)) (k : String) (v : JVal)
    (k' : String) (h : k' ≠ k) : jget (jset fs k v) k' = jget fs k' := by
  have hkk : ¬(k = k') := fun hh => h (Eq.symm hh)
  induction fs with
  | nil => simp [jset, jget, hkk]
  | cons p fs ih =>
      obtain ⟨a, b⟩ := p
      by_cases hak : a = k
      · subst hak
        simp [jset, jget, hkk]
      · by_cases hak' : a = k'
        · simp [jset, hak, jget, hak', h]
        · simp [jset, hak, jget, hak', ih]

theorem jset_keys_absent (fs : List (String × JVal)) (k : String) (v : JVal)
    (h : jget fs k = none) :
    (jset fs k v).map Prod.fst = fs.map Prod.fst ++ [k] := by
  induction fs with
  | nil => simp [jset]
  | cons p fs ih =>
      obtain ⟨a, b⟩ := p
      simp only [jget] at h
      by_cases hak : a = k
      · simp [hak] at h
      · simp only [hak, if_false] at h
        simp [jset, hak, ih h]

/-- C10 (counterexample): on a record whose `title` is null,
`normalize_title` raises an `AttributeError` instead of returning the
record with one field added; on a record whose `labels` is null,
`enrich_with_label_counts` raises a `TypeError`. -/
theorem C10_counterexample_raising_inputs :
    normalize_title (JVal.obj [("title", JVal.null)]) =
      .error PyErr.attributeError ∧
    enrich_with_label_counts (JVal.obj [("labels", JVal.null)]) =
      .error PyErr.typeError :=
  ⟨rfl, rfl⟩

/-- C10 (amended): on every mapping whose `title` value is a string
(absent reads as `""`), `normalize_title` returns the input with
`normalized_title` set and every other field unchanged, appending the
new key when it was not already present; likewise
`enrich_with_label_counts` for every mapping whose `labels` value has
a length (absent reads as `[]`), setting `label_count`.  On other
mappings the transformers raise instead of returning. -/
theorem C10_transformer_frame :
    (∀ fs s, jgetD fs "title" (JVal.str "") = JVal.str s →
      normalize_title (JVal.obj fs) =
        .ok (JVal.obj (jset fs "normalized_title"
          (JVal.str (pyCapitalize (pyStrip s))))) ∧
      jget (jset fs "normalized_title" (JVal.str (pyCapitalize (pyStrip s))))
        "normalized_title" = some (JVal.str (pyCapitalize (pyStrip s))) ∧
      (∀ k, k ≠ "normalized_title" →
        jget (jset fs "normalized_title" (JVal.str (pyCapitalize (pyStrip s)))) k
          = jget fs k) ∧
      (jget fs "normalized_title" = none →
        (jset fs "normalized_title" (JVal.str (pyCapitalize (pyStrip s)))).map
          Prod.fst = fs.map Prod.fst ++ ["normalized_title"])) ∧
    (∀ fs n, pyLen (jgetD fs "labels" (JVal.arr [])) = .ok n →
      enrich_with_label_counts (JVal.obj fs) =
        .ok (JVal.obj (jset fs "label_count" (JVal.num n))) ∧
      jget (jset fs "label_count" (JVal.num n)) "label_count"
        = some (JVal.num n) ∧
      (∀ k, k ≠ "label_count" →
        jget (jset fs "label_count" (JVal.num n)) k = jget fs k) ∧
      (jget fs "label_count" = none →
        (jset fs "label_count" (JVal.num n)).map Prod.fst
          = fs.map Prod.fst ++ ["label_count"])) := by
  constructor
  · intro fs s h
    refine ⟨?_, jget_jset_self _ _ _, fun k hk => jget_jset_ne _ _ _ _ hk,
      fun habs => jset_keys_absent _ _ _ habs⟩
    simp [normalize_title, h]
  · intro fs n h
    refine ⟨?_, jget_jset_self _ _ _, fun k hk => jget_jset_ne _ _ _ _ hk,
      fun habs => jset_keys_absent _ _ _ habs⟩
    simp [enrich_with_label_counts, h]

/-- Closed witness for C10: a stripped-and-capitalized title and a
one-label count, each produced with every other field preserved. -/
theorem C10_witness :
    normalize_title (JVal.obj [("title", JVal.str " hi ")]) =
      .ok (JVal.obj (jset [("title", JVal.str " hi ")] "normalized_title"
        (JVal.str (pyCapitalize (pyStrip " hi "))))) ∧
    enrich_with_label_counts (JVal.obj [("labels", JVal.arr [JVal.str "a"])]) =
      .ok (JVal.obj (jset [("labels", JVal.arr [JVal.str "a"])] "label_count"
        (JVal.num 1))) :=
  ⟨(C10_transformer_frame.1 [("title", JVal.str " hi ")] " hi " rfl).1,
   (C10_transformer_frame.2 [("labels", JVal.arr [JVal.str "a"])] 1 rfl).1⟩

/-! ## Aggregator: order-independence machinery -/

/-- Canonical representative of a hashable scalar under Python `==`:
booleans collapse to 0/1. -/
def canonKey : JVal → JVal
  | .bool b => .num (if b then 1 else 0)
  | v => v

theorem pyScalarEq_hashable {a b : JVal} (h : pyScalarEq a b = true) :
    pyHashable a = true ∧ pyHashable b = true := by
  cases a <;> cases b <;> simp_all [pyScalarEq, pyHashable]

theorem pyScalarEq_iff_canon {a b : JVal} (ha : pyHashable a = true)
    (hb : pyHashable b = true) :
    pyScalarEq a b = true ↔ canonKey a = canonKey b := by
  cases a with
  | null => cases b <;> simp_all [pyScalarEq, pyHashable, canonKey]
  | bool x =>
      cases b with
      | null => cases x <;> simp [pyScalarEq, canonKey]
      | bool y => cases x <;> cases y <;> simp [pyScalarEq, canonKey]
      | num n => cases x <;> simp [pyScalarEq, canonKey]
      | str t => cases x <;> simp [pyScalarEq, canonKey]
      | arr l => simp [pyHashable] at hb
      | obj l => simp [pyHashable] at hb
  | num n =>
      cases b with
      | null => simp [pyScalarEq, canonKey]
      | bool y => cases y <;> simp [pyScalarEq, canonKey]
      | num m => simp [pyScalarEq, canonKey]
      | str t => simp [pyScalarEq, canonKey]
      | arr l => simp [pyHashable] at hb
      | obj l => simp [pyHashable] at hb
  | str t =>
      cases b with
      | null => simp [pyScalarEq, canonKey]
      | bool y => cases y <;> simp [pyScalarEq, canonKey]
      | num m => simp [pyScalarEq, canonKey]
      | str u => simp [pyScalarEq, canonKey]
      | arr l => simp [pyHashable] at hb
      | obj l => simp [pyHashable] at hb
  | arr l => simp [pyHashable] at ha
  | obj l => simp [pyHashable] at ha

theorem pyScalarEq_symm {a b : JVal} (h : pyScalarEq a b = true) :
    pyScalarEq b a = true := by
  obtain ⟨ha, hb⟩ := pyScalarEq_hashable h
  exact (pyScalarEq_iff_canon hb ha).mpr ((pyScalarEq_iff_canon ha hb).mp h).symm

theorem pyScalarEq_trans {a b c : JVal} (h₁ : pyScalarEq a b = true)
    (h₂ : pyScalarEq b c = true) : pyScalarEq a c = true := by
  obtain ⟨ha, hb⟩ := pyScalarEq_hashable h₁
  obtain ⟨-, hc⟩ := pyScalarEq_hashable h₂
  exact (pyScalarEq_iff_canon ha hc).mpr
    (((pyScalarEq_iff_canon ha hb).mp h₁).trans ((pyScalarEq_iff_canon hb hc).mp h₂))

theorem truthy_canonKey (v : JVal) : truthy (canonKey v) = truthy v := by
  cases v with
  | bool b => cases b <;> simp [canonKey, truthy]
  | null => rfl
  | num n => rfl
  | str s => rfl
  | arr xs => rfl
  | obj fs => rfl

theorem pyScalarEq_truthy {a b : JVal} (h : pyScalarEq a b = true) :
    truthy a = truthy b := by
  obtain ⟨ha, hb⟩ := pyScalarEq_hashable h
  have hc := (pyScalarEq_iff_canon ha hb).mp h
  rw [← truthy_canonKey a, ← truthy_canonKey b, hc]

theorem ltCh_iff_lex (as bs : List Char) :
    ltCh as bs = true ↔ List.Lex (· < ·) as bs := by
  induction as generalizing bs with
  | nil =>
      cases bs with
      | nil =>
          simp only [ltCh, Bool.false_eq_true, false_iff]
          intro h; cases h
      | cons d ds => simp [ltCh, List.Lex.nil]
  | cons c cs ih =>
      cases bs with
      | nil =>
          simp only [ltCh, Bool.false_eq_true, false_iff]
          intro h; cases h
      | cons d ds =>
          simp only [ltCh]
          by_cases h1 : c < d
          · simp only [h1, if_true, true_iff]
            exact List.Lex.rel h1
          · by_cases h2 : d < c
            · simp only [h1, if_false, h2, if_true, Bool.false_eq_true, false_iff]
              intro h
              cases h with
              | cons h => exact absurd h2 (lt_irrefl _)
              | rel h => exact absurd h h1
            · have hcd : c = d := le_antisymm (not_lt.mp h2) (not_lt.mp h1)
              subst hcd
              simp only [h1, if_false, h2, ih]
              constructor
              · exact fun h => List.Lex.cons h
              · intro h
                cases h with
                | cons h => exact h
                | rel h => exact absurd h h1

theorem ltCh_iff (a b : String) : ltCh a.data b.data = true ↔ a < b := by
  rw [String.lt_iff_toList_lt]
  exact ltCh_iff_lex a.data b.data

/-- Values Python can add to an integer accumulator. -/
def addable : JVal → Bool
  | .num _ => true
  | .bool _ => true
  | _ => false

/-- The integer Python adds for such a value. -/
def toIntJ : JVal → Int
  | .num n => n
  | .bool b => if b then 1 else 0
  | _ => 0

/-- Total comment count of a batch of issues. -/
def commentsSum (l : List NormalizedIssue) : Int :=
  (l.map (fun i => toIntJ i.comments_count)).sum

/-- Canonical keys of all truthy labels of a batch of issues. -/
def labelKeys (l : List NormalizedIssue) : List JVal :=
  ((l.flatMap (fun i => i.labels)).filter (fun v => truthy v)).map canonKey

/-- The `updated_at` string of an issue (junk `""` on non-strings;
every use below assumes string timestamps). -/
def updStr (i : NormalizedIssue) : String :=
  match i.updated_at with
  | .str s => s
  | _ => ""

/-- The issues the aggregator accumulates under a given login key:
truthy contributor login equal (under Python `==`) to the key. -/
def relOf (login : JVal) (l : List NormalizedIssue) : List NormalizedIssue :=
  l.filter (fun i =>
    truthy i.contributor_login && pyScalarEq i.contributor_login login)

/-- An issue on which the aggregator's accumulation step raises:
counted (truthy login) but with an unhashable login, a non-addable
`comments_count`, or a truthy unhashable label. -/
def badIssueB (i : NormalizedIssue) : Bool :=
  truthy i.contributor_login &&
    (!pyHashable i.contributor_login || !addable i.comments_count ||
      i.labels.any (fun lb => truthy lb && !pyHashable lb))

/-- Lexicographic maximum of a list of strings (`""` on the empty
list; only used on non-empty lists). -/
def lexMax : List String → String
  | [] => ""
  | x :: xs => xs.foldl max x

theorem pyAddInt_ok {a : Int} {v : JVal} {r : Int} (h : pyAddInt a v = .ok r) :
    addable v = true ∧ r = a + toIntJ v := by
  cases v <;> simp_all [pyAddInt, addable, toIntJ]

theorem pyAddInt_ok_of_addable {a : Int} {v : JVal} (h : addable v = true) :
    pyAddInt a v = .ok (a + toIntJ v) := by
  cases v <;> simp_all [pyAddInt, addable, toIntJ]

theorem addLabels_ok_spec {used ls out : List JVal}
    (hu : ∀ u ∈ used, pyHashable u = true ∧ truthy u = true)
    (hnd : (used.map canonKey).Nodup) (h : addLabels used ls = .ok out) :
    (∀ u ∈ out, pyHashable u = true ∧ truthy u = true) ∧
    (out.map canonKey).Nodup ∧
    (out.map canonKey).toFinset =
      (used.map canonKey).toFinset ∪
        ((ls.filter (fun v => truthy v)).map canonKey).toFinset := by
  induction ls generalizing used with
  | nil =>
      simp only [addLabels, Except.ok.injEq] at h
      subst h
      simpa using ⟨hu, hnd⟩
  | cons lb ls ih =>
      by_cases ht : truthy lb = true
      case neg =>
        rw [addLabels, if_neg ht] at h
        obtain ⟨h1, h2, h3⟩ := ih hu hnd h
        refine ⟨h1, h2, ?_⟩
        rw [h3, List.filter_cons_of_neg (by simpa using ht)]
      case pos =>
      by_cases hh : pyHashable lb = true
      case neg =>
        rw [addLabels, if_pos ht, if_neg hh] at h
        exact absurd h (by simp)
      case pos =>
      rw [addLabels, if_pos ht, if_pos hh] at h
      cases hany : used.any (fun u => pyScalarEq u lb) with
      | true =>
          rw [if_pos hany] at h
          have hmem : canonKey lb ∈ (used.map canonKey).toFinset := by
            obtain ⟨u, hu', he⟩ : ∃ u ∈ used, pyScalarEq u lb = true := by
              simpa [List.any_eq_true] using hany
            have hc := (pyScalarEq_iff_canon (hu u hu').1 hh).mp he
            simp only [List.mem_toFinset, List.mem_map]
            exact ⟨u, hu', hc⟩
          obtain ⟨h1, h2, h3⟩ := ih hu hnd h
          refine ⟨h1, h2, ?_⟩
          rw [h3, List.filter_cons_of_pos ht]
          simp only [List.map_cons, List.toFinset_cons]
          rw [Finset.union_insert,
            Finset.insert_eq_self.mpr (Finset.mem_union_left _ hmem)]
      | false =>
          rw [if_neg (by simp [hany])] at h
          have hnotin : canonKey lb ∉ used.map canonKey := by
            intro hmem
            obtain ⟨u, hu', hc⟩ := List.mem_map.mp hmem
            have : pyScalarEq u lb = true :=
              (pyScalarEq_iff_canon (hu u hu').1 hh).mpr hc
            have : used.any (fun u => pyScalarEq u lb) = true :=
              List.any_eq_true.mpr ⟨u, hu', this⟩
            rw [hany] at this
            exact Bool.false_ne_true this
          have hu' : ∀ u ∈ used ++ [lb], pyHashable u = true ∧ truthy u = true := by
            intro u hmem
            rcases List.mem_append.mp hmem with hmem | hmem
            · exact hu u hmem
            · rw [List.mem_singleton.mp hmem]
              exact ⟨hh, ht⟩
          have hnd' : ((used ++ [lb]).map canonKey).Nodup := by
            rw [List.map_append]
            simp [List.nodup_append, hnd, hnotin]
          obtain ⟨h1, h2, h3⟩ := ih hu' hnd' h
          refine ⟨h1, h2, ?_⟩
          rw [h3, List.map_append, List.toFinset_append,
            List.filter_cons_of_pos ht]
          simp only [List.map_cons, List.toFinset_cons, List.map_nil,
            List.toFinset_nil]
          rw [Finset.union_insert]
          rw [Finset.insert_eq]
          ext x
          simp only [Finset.mem_union, Finset.mem_singleton, Finset.mem_insert]
          tauto

theorem addLabels_ok_of_good {ls used : List JVal}
    (hgood : ∀ lb ∈ ls, truthy lb = true → pyHashable lb = true) :
    ∃ out, addLabels used ls = .ok out := by
  induction ls generalizing used with
  | nil => exact ⟨used, rfl⟩
  | cons lb ls ih =>
      by_cases ht : truthy lb = true
      · rw [addLabels, if_pos ht, if_pos (hgood lb (by simp) ht)]
        exact ih (fun x hx htx => hgood x (by simp [hx]) htx)
      · rw [addLabels, if_neg ht]
        exact ih (fun x hx htx => hgood x (by simp [hx]) htx)

theorem addLabels_err_of_bad {ls used : List JVal}
    (hbad : ∃ lb ∈ ls, truthy lb = true ∧ pyHashable lb = false) :
    addLabels used ls = .error PyErr.typeError := by
  induction ls generalizing used with
  | nil => simp at hbad
  | cons lb ls ih =>
      obtain ⟨x, hx, hxt, hxh⟩ := hbad
      rcases List.mem_cons.mp hx with rfl | hx'
      · rw [addLabels, if_pos hxt, if_neg (by simp [hxh])]
      · by_cases ht : truthy lb = true
        · by_cases hh : pyHashable lb = true
          · rw [addLabels, if_pos ht, if_pos hh]
            exact ih ⟨x, hx', hxt, hxh⟩
          · rw [addLabels, if_pos ht, if_neg hh]
        · rw [addLabels, if_neg ht]
          exact ih ⟨x, hx', hxt, hxh⟩

theorem ok_bind {α β : Type} {a : α} {f : α → Except PyErr β} :
    (Except.ok a >>= f) = f a := rfl

theorem err_bind {α β : Type} {e : PyErr} {f : α → Except PyErr β} :
    ((Except.error e : Except PyErr α) >>= f) = .error e := rfl

theorem str_empty_le (s : String) : "" ≤ s := by
  by_contra hcon
  rw [not_le, String.lt_iff_toList_lt] at hcon
  exact List.Lex.not_nil_right _ _ hcon

/-- What one (or a batch of) accumulation step(s) does to an
accumulator: the step-relevant fields advance by the batch's
aggregate quantities. -/
def AccSpec (new : List NormalizedIssue) (acc acc' : ContribAcc) : Prop :=
  acc'.contributor_login = acc.contributor_login ∧
  acc'.total_issues = acc.total_issues + new.length ∧
  acc'.total_comments = acc.total_comments + commentsSum new ∧
  acc'.issues_with_assignee =
    acc.issues_with_assignee + new.countP (fun i => i.has_assignee) ∧
  acc'.issues_with_milestone =
    acc.issues_with_milestone + new.countP (fun i => truthy i.milestone) ∧
  (acc'.labels_used.map canonKey).toFinset =
    (acc.labels_used.map canonKey).toFinset ∪ (labelKeys new).toFinset ∧
  (∀ s₀, acc.latest_activity = JVal.str s₀ →
    acc'.latest_activity = JVal.str (List.foldl max s₀ (new.map updStr)))


theorem latestUpd_str {i : NormalizedIssue} {s₀ u : String}
    (hu : i.updated_at = JVal.str u) :
    latestUpd (JVal.str s₀) i = .ok (JVal.str (max s₀ u)) := by
  rw [latestUpd, hu]
  by_cases hue : u = ""
  · subst hue
    rw [if_neg (by simp [truthy])]
    rw [max_eq_left (str_empty_le s₀)]
  · rw [if_pos (by simp [truthy, hue])]
    show Except.ok (if ltCh s₀.data u.data then JVal.str u else JVal.str s₀) = _
    by_cases hlt : s₀ < u
    · rw [if_pos ((ltCh_iff s₀ u).mpr hlt), max_eq_right hlt.le]
    · have hf : ltCh s₀.data u.data = false :=
        Bool.eq_false_iff.mpr (fun hc => hlt ((ltCh_iff _ _).mp hc))
      rw [hf]
      simp only [Bool.false_eq_true, if_false]
      rw [max_eq_left (not_lt.mp hlt)]

theorem updAcc_ok_spec {acc : ContribAcc} {i : NormalizedIssue} {acc' : ContribAcc}
    (hui : ∃ s, i.updated_at = JVal.str s)
    (hlat : ∃ s, acc.latest_activity = JVal.str s)
    (hlbl : ∀ u ∈ acc.labels_used, pyHashable u = true ∧ truthy u = true)
    (hnd : (acc.labels_used.map canonKey).Nodup)
    (h : updAcc acc i = .ok acc') :
    AccSpec [i] acc acc' ∧
    (∀ u ∈ acc'.labels_used, pyHashable u = true ∧ truthy u = true) ∧
    (acc'.labels_used.map canonKey).Nodup := by
  obtain ⟨u, hu⟩ := hui
  obtain ⟨s₀, hs₀⟩ := hlat
  rw [updAcc] at h
  cases hadd : pyAddInt acc.total_comments i.comments_count with
  | error e => rw [hadd] at h; exact absurd h (by simp)
  | ok tc =>
  rw [hadd] at h
  cases hlu : addLabels acc.labels_used i.labels with
  | error e => rw [hlu] at h; exact absurd h (by simp)
  | ok lu =>
  rw [hlu] at h
  rw [hs₀, latestUpd_str hu] at h
  injection h with h
  subst h
  obtain ⟨hlu1, hlu2, hlu3⟩ := addLabels_ok_spec hlbl hnd hlu
  refine ⟨⟨rfl, by simp, ?_, ?_, ?_, ?_, ?_⟩, hlu1, hlu2⟩
  · simp [commentsSum, (pyAddInt_ok hadd).2]
  · simp [List.countP_cons]
  · simp [List.countP_cons]
  · rw [hlu3]
    simp [labelKeys]
  · intro t ht'
    rw [hs₀] at ht'
    injection ht' with ht'
    subst ht'
    simp [updStr, hu]

theorem updAcc_ok_of_good {acc : ContribAcc} {i : NormalizedIssue}
    (hui : ∃ s, i.updated_at = JVal.str s)
    (hlat : ∃ s, acc.latest_activity = JVal.str s)
    (haddable : addable i.comments_count = true)
    (hlbls : ∀ lb ∈ i.labels, truthy lb = true → pyHashable lb = true) :
    ∃ acc', updAcc acc i = .ok acc' := by
  obtain ⟨u, hu⟩ := hui
  obtain ⟨s₀, hs₀⟩ := hlat
  obtain ⟨lu, hlu⟩ := @addLabels_ok_of_good i.labels acc.labels_used hlbls
  rw [updAcc, pyAddInt_ok_of_addable haddable, hlu, hs₀, latestUpd_str hu]
  exact ⟨_, rfl⟩

theorem updAcc_err_of_bad {acc : ContribAcc} {i : NormalizedIssue}
    (hbad : addable i.comments_count = false ∨
      ∃ lb ∈ i.labels, truthy lb = true ∧ pyHashable lb = false) :
    ∃ e, updAcc acc i = .error e := by
  rcases hbad with hbad | hbad
  · rw [updAcc]
    cases hv : i.comments_count <;> rw [hv] at hbad <;>
      simp [addable] at hbad <;> exact ⟨_, rfl⟩
  · rw [updAcc]
    cases hadd : pyAddInt acc.total_comments i.comments_count with
    | error e => exact ⟨e, rfl⟩
    | ok tc => rw [addLabels_err_of_bad hbad]; exact ⟨_, rfl⟩

/-- Invariant of the `contributor_stats` dict: every key is a truthy
hashable login, each accumulator records its own key as login and a
string `latest_activity`, its label set is a duplicate-free list of
truthy hashable values, and keys are pairwise distinct under Python
`==`. -/
def MapInv (m : List (JVal × ContribAcc)) : Prop :=
  (∀ p ∈ m, pyHashable p.1 = true ∧ truthy p.1 = true ∧
     p.2.contributor_login = p.1 ∧ (∃ s, p.2.latest_activity = JVal.str s) ∧
     (∀ u ∈ p.2.labels_used, pyHashable u = true ∧ truthy u = true) ∧
     (p.2.labels_used.map canonKey).Nodup) ∧
  m.Pairwise (fun p q => pyScalarEq p.1 q.1 = false)

theorem lookupAcc_congr {m : List (JVal × ContribAcc)} {a b : JVal}
    (hab : pyScalarEq a b = true) : lookupAcc m a = lookupAcc m b := by
  induction m with
  | nil => rfl
  | cons p m ih =>
      obtain ⟨k, acc⟩ := p
      by_cases hk : pyScalarEq k a = true
      · rw [lookupAcc, if_pos hk, lookupAcc, if_pos (pyScalarEq_trans hk hab)]
      · have hk' : ¬(pyScalarEq k b = true) := by
          intro hkb
          exact hk (pyScalarEq_trans hkb (pyScalarEq_symm hab))
        rw [lookupAcc, if_neg hk, lookupAcc, if_neg hk']
        exact ih

theorem lookupAcc_append_none {m : List (JVal × ContribAcc)} {login k : JVal}
    {acc : ContribAcc} (hnone : lookupAcc m login = none) :
    lookupAcc (m ++ [(k, acc)]) login =
      if pyScalarEq k login = true then some acc else none := by
  induction m with
  | nil => rfl
  | cons p m ih =>
      obtain ⟨k₁, a₁⟩ := p
      rw [lookupAcc] at hnone
      by_cases h1 : pyScalarEq k₁ login = true
      · rw [if_pos h1] at hnone; exact absurd hnone (by simp)
      · rw [if_neg h1] at hnone
        rw [List.cons_append, lookupAcc, if_neg h1]
        exact ih hnone

theorem lookupAcc_replace_eq {m : List (JVal × ContribAcc)} {login k : JVal}
    {acc' : ContribAcc} (hk : pyScalarEq k login = true)
    (hsome : (lookupAcc m k).isSome = true) :
    lookupAcc (replaceAcc m k acc') login = some acc' := by
  induction m with
  | nil => simp [lookupAcc] at hsome
  | cons p m ih =>
      obtain ⟨k₁, a₁⟩ := p
      by_cases h1 : pyScalarEq k₁ k = true
      · rw [replaceAcc, if_pos h1, lookupAcc,
          if_pos (pyScalarEq_trans h1 hk)]
      · rw [replaceAcc, if_neg h1, lookupAcc]
        have h1' : ¬(pyScalarEq k₁ login = true) := by
          intro hkb
          exact h1 (pyScalarEq_trans hkb (pyScalarEq_symm hk))
        rw [if_neg h1']
        rw [lookupAcc, if_neg h1] at hsome
        exact ih hsome

theorem lookupAcc_replace_ne {m : List (JVal × ContribAcc)} {login k : JVal}
    {acc' : ContribAcc} (hk : pyScalarEq k login = false) :
    lookupAcc (replaceAcc m k acc') login = lookupAcc m login := by
  induction m with
  | nil => rfl
  | cons p m ih =>
      obtain ⟨k₁, a₁⟩ := p
      by_cases h1 : pyScalarEq k₁ k = true
      · have h1' : ¬(pyScalarEq k₁ login = true) := by
          intro hkb
          have := pyScalarEq_trans (pyScalarEq_symm h1) hkb
          rw [hk] at this
          exact Bool.false_ne_true this
        rw [replaceAcc, if_pos h1, lookupAcc, if_neg h1', lookupAcc, if_neg h1']
      · rw [replaceAcc, if_neg h1, lookupAcc, lookupAcc]
        by_cases h2 : pyScalarEq k₁ login = true
        · rw [if_pos h2, if_pos h2]
        · rw [if_neg h2, if_neg h2]
          exact ih

theorem replaceAcc_fst (m : List (JVal × ContribAcc)) (login : JVal)
    (acc' : ContribAcc) :
    (replaceAcc m login acc').map Prod.fst = m.map Prod.fst := by
  induction m with
  | nil => rfl
  | cons p m ih =>
      obtain ⟨k₁, a₁⟩ := p
      by_cases h1 : pyScalarEq k₁ login = true
      · rw [replaceAcc, if_pos h1]; simp
      · rw [replaceAcc, if_neg h1]
        simpa using ih

theorem replaceAcc_mem {m : List (JVal × ContribAcc)} {login : JVal}
    {acc' : ContribAcc} {p : JVal × ContribAcc}
    (hp : p ∈ replaceAcc m login acc') :
    p ∈ m ∨ ∃ k a, (k, a) ∈ m ∧ pyScalarEq k login = true ∧ p = (k, acc') := by
  induction m with
  | nil => simp [replaceAcc] at hp
  | cons q m ih =>
      obtain ⟨k₁, a₁⟩ := q
      by_cases h1 : pyScalarEq k₁ login = true
      · rw [replaceAcc, if_pos h1] at hp
        rcases List.mem_cons.mp hp with rfl | hp'
        · exact Or.inr ⟨k₁, a₁, by simp, h1, rfl⟩
        · exact Or.inl (by simp [hp'])
      · rw [replaceAcc, if_neg h1] at hp
        rcases List.mem_cons.mp hp with rfl | hp'
        · exact Or.inl (by simp)
        · rcases ih hp' with h | ⟨k, a, hka, hke, rfl⟩
          · exact Or.inl (by simp [h])
          · exact Or.inr ⟨k, a, by simp [hka], hke, rfl⟩

theorem lookupAcc_none_iff {m : List (JVal × ContribAcc)} {login : JVal} :
    lookupAcc m login = none ↔ ∀ p ∈ m, pyScalarEq p.1 login = false := by
  induction m with
  | nil => simp [lookupAcc]
  | cons p m ih =>
      obtain ⟨k, a⟩ := p
      by_cases h1 : pyScalarEq k login = true
      · rw [lookupAcc, if_pos h1]
        simp [h1]
      · rw [lookupAcc, if_neg h1]
        simp only [Bool.not_eq_true] at h1
        simp [ih, h1]

theorem replace_after_lookup {m : List (JVal × ContribAcc)} {login : JVal}
    {acc : ContribAcc} (acc' : ContribAcc)
    (hlk : lookupAcc m login = some acc) :
    ∃ k pre post, m = pre ++ (k, acc) :: post ∧
      replaceAcc m login acc' = pre ++ (k, acc') :: post ∧
      pyScalarEq k login = true := by
  induction m with
  | nil => simp [lookupAcc] at hlk
  | cons p m ih =>
      obtain ⟨k₁, a₁⟩ := p
      by_cases h1 : pyScalarEq k₁ login = true
      · rw [lookupAcc, if_pos h1] at hlk
        injection hlk with hlk
        subst hlk
        exact ⟨k₁, [], m, rfl, by rw [replaceAcc, if_pos h1]; rfl, h1⟩
      · rw [lookupAcc, if_neg h1] at hlk
        obtain ⟨k, pre, post, hm, hr, hke⟩ := ih hlk
        exact ⟨k, (k₁, a₁) :: pre, post, by rw [hm]; rfl,
          by rw [replaceAcc, if_neg h1, hr]; rfl, hke⟩

theorem lookupAcc_append {m : List (JVal × ContribAcc)} {k login : JVal}
    {acc : ContribAcc} :
    lookupAcc (m ++ [(k, acc)]) login =
      match lookupAcc m login with
      | some x => some x
      | none => if pyScalarEq k login = true then some acc else none := by
  induction m with
  | nil => rfl
  | cons p m ih =>
      obtain ⟨k₁, a₁⟩ := p
      by_cases h1 : pyScalarEq k₁ login = true
      · rw [List.cons_append, lookupAcc, if_pos h1, lookupAcc, if_pos h1]
      · rw [List.cons_append, lookupAcc, if_neg h1, lookupAcc, if_neg h1]
        exact ih

theorem aggStep_ok_spec {m : List (JVal × ContribAcc)} {i : NormalizedIssue}
    {m' : List (JVal × ContribAcc)}
    (hminv : MapInv m) (hui : ∃ s, i.updated_at = JVal.str s)
    (h : aggStep m i = .ok m') :
    MapInv m' ∧
    ((truthy i.contributor_login = false ∧ m' = m) ∨
     (truthy i.contributor_login = true ∧
       (∀ login, pyScalarEq i.contributor_login login = false →
         lookupAcc m' login = lookupAcc m login) ∧
       (∀ login, pyScalarEq i.contributor_login login = true →
         match lookupAcc m login, lookupAcc m' login with
         | none, some acc' => AccSpec [i] (initAcc i) acc'
         | some acc, some acc' => AccSpec [i] acc acc'
         | _, _ => False))) := by
  rw [aggStep] at h
  by_cases ht : truthy i.contributor_login = true
  case neg =>
    have ht' : truthy i.contributor_login = false := by
      revert ht; cases truthy i.contributor_login <;> simp
    rw [ht'] at h
    simp only [Bool.not_false, if_true] at h
    injection h with h
    subst h
    exact ⟨hminv, Or.inl ⟨ht', rfl⟩⟩
  case pos =>
  rw [ht] at h
  simp only [Bool.not_true, Bool.false_eq_true, if_false] at h
  by_cases hh : pyHashable i.contributor_login = true
  swap
  · have hh' : pyHashable i.contributor_login = false := by
      revert hh; cases pyHashable i.contributor_login <;> simp
    rw [hh'] at h
    simp at h
  rw [hh] at h
  simp only [Bool.not_true, Bool.false_eq_true, if_false] at h
  cases hlk : lookupAcc m i.contributor_login with
  | some acc =>
      rw [hlk] at h
      have h2 : (match updAcc acc i with
          | Except.error e => Except.error e
          | Except.ok acc' =>
              Except.ok (replaceAcc m i.contributor_login acc')) =
          Except.ok m' := h
      clear h
      cases hupd : updAcc acc i with
      | error e => rw [hupd] at h2; exact absurd h2 (by simp)
      | ok acc' =>
      rw [hupd] at h2
      injection h2 with h2
      subst h2
      obtain ⟨k, pre, post, hm, hr, hke⟩ := replace_after_lookup acc' hlk
      have hkm : (k, acc) ∈ m := by rw [hm]; simp
      obtain ⟨hkh, hkt, hklogin, hklat, hklbl, hknd⟩ := hminv.1 (k, acc) hkm
      obtain ⟨hspec, hlb', hnd'⟩ := updAcc_ok_spec hui hklat hklbl hknd hupd
      have hlat' : ∃ s, acc'.latest_activity = JVal.str s := by
        obtain ⟨s₀, hs₀⟩ := hklat
        exact ⟨_, hspec.2.2.2.2.2.2 s₀ hs₀⟩
      have hminv' : MapInv (replaceAcc m i.contributor_login acc') := by
        constructor
        · intro p hp
          rw [hr] at hp
          rcases List.mem_append.mp hp with hp | hp
          · exact hminv.1 p (by rw [hm]; exact List.mem_append.mpr (Or.inl hp))
          · rcases List.mem_cons.mp hp with rfl | hp
            · exact ⟨hkh, hkt, hspec.1.trans hklogin, hlat', hlb', hnd'⟩
            · exact hminv.1 p
                (by rw [hm]; exact List.mem_append.mpr (Or.inr (by simp [hp])))
        · have hfst := replaceAcc_fst m i.contributor_login acc'
          have hpw := hminv.2
          have h1 : (m.map Prod.fst).Pairwise
              (fun a b => pyScalarEq a b = false) := List.pairwise_map.mpr hpw
          rw [← hfst] at h1
          exact List.pairwise_map.mp h1
      refine ⟨hminv', Or.inr ⟨ht, ?_, ?_⟩⟩
      · intro login hne
        exact lookupAcc_replace_ne hne
      · intro login heq
        have hlk' : lookupAcc m login = some acc := by
          rw [lookupAcc_congr (pyScalarEq_symm heq)]
          exact hlk
        have hsome : (lookupAcc m i.contributor_login).isSome = true := by
          rw [hlk]; rfl
        rw [hlk', lookupAcc_replace_eq heq hsome]
        exact hspec
  | none =>
      rw [hlk] at h
      have h2 : (match updAcc (initAcc i) i with
          | Except.error e => Except.error e
          | Except.ok acc' =>
              Except.ok (m ++ [(i.contributor_login, acc')])) =
          Except.ok m' := h
      clear h
      cases hupd : updAcc (initAcc i) i with
      | error e => rw [hupd] at h2; exact absurd h2 (by simp)
      | ok acc' =>
      rw [hupd] at h2
      injection h2 with h2
      subst h2
      obtain ⟨u, hu⟩ := hui
      have hinit_lat : ∃ s, (initAcc i).latest_activity = JVal.str s :=
        ⟨u, by simp [initAcc, hu]⟩
      have hinit_lbl : ∀ x ∈ (initAcc i).labels_used,
          pyHashable x = true ∧ truthy x = true := by simp [initAcc]
      have hinit_nd : ((initAcc i).labels_used.map canonKey).Nodup := by
        simp [initAcc]
      obtain ⟨hspec, hlb', hnd'⟩ :=
        updAcc_ok_spec ⟨u, hu⟩ hinit_lat hinit_lbl hinit_nd hupd
      have hlat' : ∃ s, acc'.latest_activity = JVal.str s := by
        obtain ⟨s₀, hs₀⟩ := hinit_lat
        exact ⟨_, hspec.2.2.2.2.2.2 s₀ hs₀⟩
      have hall : ∀ p ∈ m, pyScalarEq p.1 i.contributor_login = false :=
        lookupAcc_none_iff.mp hlk
      have hminv' : MapInv (m ++ [(i.contributor_login, acc')]) := by
        constructor
        · intro p hp
          rcases List.mem_append.mp hp with hp | hp
          · exact hminv.1 p hp
          · rcases List.mem_singleton.mp hp with rfl
            refine ⟨hh, ht, ?_, hlat', hlb', hnd'⟩
            exact hspec.1.trans (by simp [initAcc])
        · rw [List.pairwise_append]
          refine ⟨hminv.2, by simp, ?_⟩
          intro p hp q hq
          rw [List.mem_singleton.mp hq]
          exact hall p hp
      refine ⟨hminv', Or.inr ⟨ht, ?_, ?_⟩⟩
      · intro login hne
        rw [lookupAcc_append]
        cases hx : lookupAcc m login with
        | some x => rfl
        | none => rw [if_neg (by simp [hne])]
      · intro login heq
        have hlk' : lookupAcc m login = none := by
          rw [lookupAcc_congr (pyScalarEq_symm heq)]
          exact hlk
        rw [hlk', lookupAcc_append, hlk', if_pos heq]
        exact hspec

theorem AccSpec_nil (acc : ContribAcc) : AccSpec [] acc acc := by
  refine ⟨rfl, by simp, by simp [commentsSum], by simp, by simp, by simp [labelKeys], ?_⟩
  intro s₀ h
  simpa using h

theorem AccSpec_append {n₁ n₂ : List NormalizedIssue} {a b c : ContribAcc}
    (h₁ : AccSpec n₁ a b) (h₂ : AccSpec n₂ b c) : AccSpec (n₁ ++ n₂) a c := by
  obtain ⟨l₁, t₁, c₁, a₁, m₁, f₁, u₁⟩ := h₁
  obtain ⟨l₂, t₂, c₂, a₂, m₂, f₂, u₂⟩ := h₂
  refine ⟨l₂.trans l₁, ?_, ?_, ?_, ?_, ?_, ?_⟩
  · rw [t₂, t₁, List.length_append]; ring
  · have hcs : commentsSum (n₁ ++ n₂) = commentsSum n₁ + commentsSum n₂ := by
      simp [commentsSum]
    rw [c₂, c₁, hcs]; ring
  · rw [a₂, a₁, List.countP_append]; ring
  · rw [m₂, m₁, List.countP_append]; ring
  · have hlk : labelKeys (n₁ ++ n₂) = labelKeys n₁ ++ labelKeys n₂ := by
      simp [labelKeys]
    rw [f₂, f₁, hlk]
    rw [List.toFinset_append]
    rw [Finset.union_assoc]
  · intro s₀ h
    have hb := u₁ s₀ h
    have hc := u₂ _ hb
    rw [hc, List.map_append, List.foldl_append]

theorem aggStep_ok_of_good {m : List (JVal × ContribAcc)} {i : NormalizedIssue}
    (hminv : MapInv m) (hui : ∃ s, i.updated_at = JVal.str s)
    (hgood : badIssueB i = false) :
    ∃ m', aggStep m i = .ok m' := by
  obtain ⟨u, hu⟩ := hui
  rw [aggStep]
  by_cases ht : truthy i.contributor_login = true
  case neg =>
    have ht' : truthy i.contributor_login = false := by
      revert ht; cases truthy i.contributor_login <;> simp
    rw [ht']
    exact ⟨m, rfl⟩
  case pos =>
  rw [ht]
  simp only [Bool.not_true, Bool.false_eq_true, if_false]
  rw [badIssueB, ht] at hgood
  simp only [Bool.true_and, Bool.or_eq_false_iff, Bool.not_eq_false',
    List.any_eq_false] at hgood
  obtain ⟨⟨hh, hadd⟩, hlbls⟩ := hgood
  have hlbls' : ∀ lb ∈ i.labels, truthy lb = true → pyHashable lb = true := by
    intro lb hlb htl
    have := hlbls lb hlb
    rw [htl] at this
    simpa using this
  rw [hh]
  simp only [Bool.not_true, Bool.false_eq_true, if_false]
  cases hlk : lookupAcc m i.contributor_login with
  | none =>
      obtain ⟨acc', hupd⟩ := @updAcc_ok_of_good (initAcc i) i ⟨u, hu⟩
        ⟨u, by simp [initAcc, hu]⟩ hadd hlbls'
      refine ⟨m ++ [(i.contributor_login, acc')], ?_⟩
      show (match updAcc (initAcc i) i with
        | Except.error e => Except.error e
        | Except.ok acc' =>
            Except.ok (m ++ [(i.contributor_login, acc')])) = _
      rw [hupd]
  | some acc =>
      obtain ⟨k, pre, post, hm, -, -⟩ := replace_after_lookup acc hlk
      have hkm : (k, acc) ∈ m := by rw [hm]; simp
      obtain ⟨-, -, -, hklat, -, -⟩ := hminv.1 (k, acc) hkm
      have hklat' : ∃ s, acc.latest_activity = JVal.str s := hklat
      obtain ⟨acc', hupd⟩ := updAcc_ok_of_good ⟨u, hu⟩ hklat' hadd hlbls'
      refine ⟨replaceAcc m i.contributor_login acc', ?_⟩
      show (match updAcc acc i with
        | Except.error e => Except.error e
        | Except.ok acc' =>
            Except.ok (replaceAcc m i.contributor_login acc')) = _
      rw [hupd]

theorem aggStep_err_of_bad {m : List (JVal × ContribAcc)} {i : NormalizedIssue}
    (hbad : badIssueB i = true) : ∃ e, aggStep m i = .error e := by
  rw [badIssueB] at hbad
  simp only [Bool.and_eq_true] at hbad
  obtain ⟨ht, hrest⟩ := hbad
  rw [aggStep, ht]
  simp only [Bool.not_true, Bool.false_eq_true, if_false]
  cases hh : pyHashable i.contributor_login with
  | false =>
      simp only [hh, Bool.not_false, if_true]
      exact ⟨_, rfl⟩
  | true =>
      simp only [hh, Bool.not_true, Bool.false_eq_true, if_false]
      rw [hh] at hrest
      simp only [Bool.not_true, Bool.false_or, Bool.or_eq_true,
        Bool.not_eq_true', List.any_eq_true] at hrest
      have hbad2 : addable i.comments_count = false ∨
          ∃ lb ∈ i.labels, truthy lb = true ∧ pyHashable lb = false := by
        rcases hrest with h | h
        · exact Or.inl h
        · obtain ⟨lb, hlb, hc⟩ := h
          simp only [Bool.and_eq_true, Bool.not_eq_true'] at hc
          exact Or.inr ⟨lb, hlb, hc.1, hc.2⟩
      cases hlk : lookupAcc m i.contributor_login with
      | none =>
          obtain ⟨e, hupd⟩ := @updAcc_err_of_bad (initAcc i) i hbad2
          refine ⟨e, ?_⟩
          show (match updAcc (initAcc i) i with
            | Except.error e => Except.error e
            | Except.ok acc' =>
                Except.ok (m ++ [(i.contributor_login, acc')])) = _
          rw [hupd]
      | some acc =>
          obtain ⟨e, hupd⟩ := @updAcc_err_of_bad acc i hbad2
          refine ⟨e, ?_⟩
          show (match updAcc acc i with
            | Except.error e => Except.error e
            | Except.ok acc' =>
                Except.ok (replaceAcc m i.contributor_login acc')) = _
          rw [hupd]

theorem foldlM_agg_cons {init : List (JVal × ContribAcc)} {i : NormalizedIssue}
    {l : List NormalizedIssue} :
    List.foldlM aggStep init (i :: l) =
      aggStep init i >>= fun m₁ => List.foldlM aggStep m₁ l := rfl

theorem foldl_agg_spec {l : List NormalizedIssue}
    {init fin : List (JVal × ContribAcc)}
    (hupd : ∀ i ∈ l, ∃ s, i.updated_at = JVal.str s)
    (hminv : MapInv init)
    (h : List.foldlM aggStep init l = .ok fin) :
    MapInv fin ∧
    ∀ login,
      match lookupAcc init login, lookupAcc fin login with
      | none, none => relOf login l = []
      | none, some acc' => ∃ first rest, relOf login l = first :: rest ∧
          AccSpec (relOf login l) (initAcc first) acc'
      | some acc, some acc' => AccSpec (relOf login l) acc acc'
      | some _, none => False := by
  induction l generalizing init with
  | nil =>
      have hfin : init = fin := by
        have h2 : (Except.ok init : Except PyErr (List (JVal × ContribAcc)))
            = Except.ok fin := h
        injection h2
      subst hfin
      refine ⟨hminv, ?_⟩
      intro login
      cases hlk : lookupAcc init login with
      | none => show relOf login [] = []; rfl
      | some acc => show AccSpec (relOf login []) acc acc; exact AccSpec_nil acc
  | cons i l ih =>
      rw [foldlM_agg_cons] at h
      cases hstep : aggStep init i with
      | error e => rw [hstep] at h; exact absurd h (by simp [Bind.bind, Except.bind])
      | ok m₁ =>
      rw [hstep, ok_bind] at h
      obtain ⟨hminv₁, hcase⟩ := aggStep_ok_spec hminv (hupd i (by simp)) hstep
      obtain ⟨hfinInv, hspec⟩ := ih (fun x hx => hupd x (by simp [hx])) hminv₁ h
      refine ⟨hfinInv, ?_⟩
      intro login
      rcases hcase with ⟨hfalse, rfl⟩ | ⟨htrue, hne, heq⟩
      · have hrel : relOf login (i :: l) = relOf login l := by
          simp [relOf, List.filter_cons, hfalse]
        rw [hrel]
        exact hspec login
      · by_cases hq : pyScalarEq i.contributor_login login = true
        · have hrel : relOf login (i :: l) = i :: relOf login l := by
            simp [relOf, List.filter_cons, htrue, hq]
          rw [hrel]
          have hstep_login := heq login hq
          cases hlk0 : lookupAcc init login with
          | none =>
              rw [hlk0] at hstep_login
              cases hlk1 : lookupAcc m₁ login with
              | none => rw [hlk1] at hstep_login; exact (hstep_login : False).elim
              | some acc₁ =>
              rw [hlk1] at hstep_login
              have hs1 : AccSpec [i] (initAcc i) acc₁ := hstep_login
              have hspec_login := hspec login
              rw [hlk1] at hspec_login
              cases hlk2 : lookupAcc fin login with
              | none => rw [hlk2] at hspec_login; exact (hspec_login : False).elim
              | some acc₂ =>
              rw [hlk2] at hspec_login
              have hs2 : AccSpec (relOf login l) acc₁ acc₂ := hspec_login
              show ∃ first rest, i :: relOf login l = first :: rest ∧
                AccSpec (i :: relOf login l) (initAcc first) acc₂
              refine ⟨i, relOf login l, rfl, ?_⟩
              have := AccSpec_append hs1 hs2
              simpa using this
          | some acc₀ =>
              rw [hlk0] at hstep_login
              cases hlk1 : lookupAcc m₁ login with
              | none => rw [hlk1] at hstep_login; exact (hstep_login : False).elim
              | some acc₁ =>
              rw [hlk1] at hstep_login
              have hs1 : AccSpec [i] acc₀ acc₁ := hstep_login
              have hspec_login := hspec login
              rw [hlk1] at hspec_login
              cases hlk2 : lookupAcc fin login with
              | none => rw [hlk2] at hspec_login; exact (hspec_login : False).elim
              | some acc₂ =>
              rw [hlk2] at hspec_login
              have hs2 : AccSpec (relOf login l) acc₁ acc₂ := hspec_login
              show AccSpec (i :: relOf login l) acc₀ acc₂
              have := AccSpec_append hs1 hs2
              simpa using this
        · have hq' : pyScalarEq i.contributor_login login = false := by
            revert hq; cases pyScalarEq i.contributor_login login <;> simp
          have hrel : relOf login (i :: l) = relOf login l := by
            simp [relOf, List.filter_cons, hq']
          rw [hrel]
          have hlk1 := hne login hq'
          have hspec_login := hspec login
          rw [hlk1] at hspec_login
          exact hspec_login

theorem MapInv_nil : MapInv [] := ⟨by simp, by simp⟩

theorem pyScalarEq_refl {a : JVal} (ha : pyHashable a = true) :
    pyScalarEq a a = true := by
  cases a <;> simp_all [pyScalarEq, pyHashable]

theorem foldl_agg_ok_of_good {l : List NormalizedIssue}
    {init : List (JVal × ContribAcc)} (hminv : MapInv init)
    (hupd : ∀ i ∈ l, ∃ s, i.updated_at = JVal.str s)
    (hgood : ∀ i ∈ l, badIssueB i = false) :
    ∃ fin, List.foldlM aggStep init l = .ok fin := by
  induction l generalizing init with
  | nil => exact ⟨init, rfl⟩
  | cons i l ih =>
      obtain ⟨m₁, hstep⟩ :=
        aggStep_ok_of_good hminv (hupd i (by simp)) (hgood i (by simp))
      have hminv₁ := (aggStep_ok_spec hminv (hupd i (by simp)) hstep).1
      obtain ⟨fin, hfold⟩ := ih hminv₁ (fun x hx => hupd x (by simp [hx]))
        (fun x hx => hgood x (by simp [hx]))
      exact ⟨fin, by rw [foldlM_agg_cons, hstep, ok_bind]; exact hfold⟩

theorem foldl_agg_err_of_bad {l : List NormalizedIssue}
    {init : List (JVal × ContribAcc)} (hminv : MapInv init)
    (hupd : ∀ i ∈ l, ∃ s, i.updated_at = JVal.str s)
    (hbad : ∃ i ∈ l, badIssueB i = true) :
    ∃ e, List.foldlM aggStep init l = .error e := by
  induction l generalizing init with
  | nil => simp at hbad
  | cons i l ih =>
      by_cases hb : badIssueB i = true
      · obtain ⟨e, hstep⟩ := @aggStep_err_of_bad init i hb
        exact ⟨e, by rw [foldlM_agg_cons, hstep]; rfl⟩
      · have hb' : badIssueB i = false := by
          revert hb; cases badIssueB i <;> simp
        obtain ⟨m₁, hstep⟩ := aggStep_ok_of_good hminv (hupd i (by simp)) hb'
        have hminv₁ := (aggStep_ok_spec hminv (hupd i (by simp)) hstep).1
        have hbad' : ∃ x ∈ l, badIssueB x = true := by
          obtain ⟨x, hx, hbx⟩ := hbad
          rcases List.mem_cons.mp hx with rfl | hx'
          · exact absurd hbx hb
          · exact ⟨x, hx', hbx⟩
        obtain ⟨e, hfold⟩ := ih hminv₁ (fun x hx => hupd x (by simp [hx])) hbad'
        exact ⟨e, by rw [foldlM_agg_cons, hstep, ok_bind]; exact hfold⟩

theorem lookupAcc_self {m : List (JVal × ContribAcc)} (hinv : MapInv m) :
    ∀ p ∈ m, lookupAcc m p.1 = some p.2 := by
  obtain ⟨hmem, hpw⟩ := hinv
  induction m with
  | nil => simp
  | cons q m ih =>
      intro p hp
      obtain ⟨k, a⟩ := q
      rcases List.mem_cons.mp hp with rfl | hp'
      · have h1 : pyScalarEq k k = true :=
          pyScalarEq_refl (hmem (k, a) (by simp)).1
        show lookupAcc ((k, a) :: m) k = some a
        rw [lookupAcc, if_pos h1]
      · have hne : pyScalarEq k p.1 = false :=
          (List.pairwise_cons.mp hpw).1 p hp'
        rw [lookupAcc, if_neg (by simp [hne])]
        exact ih (fun x hx => hmem x (by simp [hx]))
          (List.pairwise_cons.mp hpw).2 p hp'

theorem lookupAcc_some_mem {m : List (JVal × ContribAcc)} {login : JVal}
    {acc : ContribAcc} (h : lookupAcc m login = some acc) :
    ∃ k, (k, acc) ∈ m ∧ pyScalarEq k login = true := by
  obtain ⟨k, pre, post, hm, -, hke⟩ := replace_after_lookup acc h
  exact ⟨k, by rw [hm]; simp, hke⟩

theorem find?_summaries {m : List (JVal × ContribAcc)} {login : JVal}
    (hlog : ∀ p ∈ m, p.2.contributor_login = p.1) :
    ((m.map (fun p => finalizeAcc p.2)).find?
        (fun s => pyScalarEq s.contributor_login login)) =
      (lookupAcc m login).map (fun acc => finalizeAcc acc) := by
  induction m with
  | nil => rfl
  | cons q m ih =>
      obtain ⟨k, a⟩ := q
      have hk : (finalizeAcc a).contributor_login = k := hlog (k, a) (by simp)
      by_cases h1 : pyScalarEq k login = true
      · have hb2 : pyScalarEq (finalizeAcc (k, a).2).contributor_login login
            = true := by
          show pyScalarEq (finalizeAcc a).contributor_login login = true
          rw [hk]; exact h1
        rw [List.map_cons]
        simp only [List.find?, hb2]
        rw [lookupAcc, if_pos h1]
        rfl
      · have h1' : pyScalarEq k login = false := by
          revert h1; cases pyScalarEq k login <;> simp
        have hb2 : pyScalarEq (finalizeAcc (k, a).2).contributor_login login
            = false := by
          show pyScalarEq (finalizeAcc a).contributor_login login = false
          rw [hk]; exact h1'
        rw [List.map_cons]
        simp only [List.find?, hb2]
        rw [lookupAcc, if_neg h1]
        exact ih (fun p hp => hlog p (by simp [hp]))

/-- The four order-insensitive statistics of one contributor,
expressed as functions of the multiset of that contributor's issues. -/
def quadOf (rel : List NormalizedIssue) : Nat × Int × Nat × ℚ :=
  (rel.length, commentsSum rel, (labelKeys rel).toFinset.card,
   (rel.length : ℚ) * 2 + (commentsSum rel : ℚ) * 1 +
     (rel.countP (fun i => i.has_assignee) : ℚ) * (0.5 : ℚ) +
     (rel.countP (fun i => truthy i.milestone) : ℚ) * (0.5 : ℚ))

theorem summaryView_char (issues : List NormalizedIssue) (login : JVal)
    (hupd : ∀ i ∈ issues, ∃ s, i.updated_at = JVal.str s) :
    summaryView issues login =
      if issues.any badIssueB = true then none
      else if (relOf login issues).isEmpty = true then none
      else some (quadOf (relOf login issues)) := by
  by_cases hbad : issues.any badIssueB = true
  · rw [if_pos hbad]
    obtain ⟨x, hx, hbx⟩ := List.any_eq_true.mp hbad
    obtain ⟨e, herr⟩ := foldl_agg_err_of_bad MapInv_nil hupd ⟨x, hx, hbx⟩
    have htop_err : top_contributors_resource issues = .error e := by
      rw [top_contributors_resource,
        show aggregate issues = .error e from herr]
    rw [summaryView, htop_err]
  · rw [if_neg hbad]
    have hgood : ∀ i ∈ issues, badIssueB i = false := by
      intro i hi
      by_contra hc
      have hc' : badIssueB i = true := by revert hc; cases badIssueB i <;> simp
      exact hbad (List.any_eq_true.mpr ⟨i, hi, hc'⟩)
    obtain ⟨m, hok⟩ := foldl_agg_ok_of_good MapInv_nil hupd hgood
    obtain ⟨hminv, hspec⟩ := foldl_agg_spec hupd MapInv_nil hok
    have htop : top_contributors_resource issues =
        .ok ((m.filter (fun p => p.2.total_issues > 0)).map
          (fun p => finalizeAcc p.2)) := by
      rw [top_contributors_resource, show aggregate issues = .ok m from hok]
    have hpos : ∀ p ∈ m, p.2.total_issues > 0 := by
      intro p hp
      have hself := lookupAcc_self hminv p hp
      have hsl := hspec p.1
      rw [hself] at hsl
      have hsl2 : ∃ first rest, relOf p.1 issues = first :: rest ∧
          AccSpec (relOf p.1 issues) (initAcc first) p.2 := hsl
      obtain ⟨first, rest, hrel, hacc⟩ := hsl2
      have hti := hacc.2.1
      rw [hti, hrel]
      simp [initAcc]
    have hfilter : m.filter (fun p => p.2.total_issues > 0) = m := by
      rw [List.filter_eq_self]
      intro p hp
      simpa using hpos p hp
    have hfind := @find?_summaries m login
      (fun p hp => (hminv.1 p hp).2.2.1)
    have hsv : summaryView issues login =
        ((lookupAcc m login).map (fun acc => finalizeAcc acc)).map statsQuad := by
      rw [summaryView, htop, hfilter]
      show Option.map statsQuad
        (List.find? (fun s => pyScalarEq s.contributor_login login)
          (List.map (fun p => finalizeAcc p.2) m)) = _
      rw [hfind]
    rw [hsv]
    have hsl := hspec login
    cases hlk : lookupAcc m login with
    | none =>
        rw [hlk] at hsl
        have hrel : relOf login issues = [] := hsl
        rw [if_pos (by simp [hrel])]
        rfl
    | some acc =>
        rw [hlk] at hsl
        have hsl2 : ∃ first rest, relOf login issues = first :: rest ∧
            AccSpec (relOf login issues) (initAcc first) acc := hsl
        obtain ⟨first, rest, hrel, hacc⟩ := hsl2
        rw [if_neg (by simp [hrel])]
        obtain ⟨-, hti, htc, has, hms, hlbl, -⟩ := hacc
        obtain ⟨k, hkm, -⟩ := lookupAcc_some_mem hlk
        have hnd := (hminv.1 (k, acc) hkm).2.2.2.2.2
        have hcard : acc.labels_used.length =
            (labelKeys (relOf login issues)).toFinset.card := by
          have h1 : (acc.labels_used.map canonKey).toFinset =
              (labelKeys (relOf login issues)).toFinset := by
            rw [hlbl]; simp [initAcc]
          rw [← h1, List.toFinset_card_of_nodup hnd, List.length_map]
        show some (statsQuad (finalizeAcc acc)) =
          some (quadOf (relOf login issues))
        simp only [statsQuad, finalizeAcc, quadOf, Option.some.injEq,
          Prod.mk.injEq]
        refine ⟨?_, ?_, hcard, ?_⟩
        · rw [hti]; simp [initAcc]
        · rw [htc]; simp [initAcc]
        · rw [hti, htc, has, hms]
          simp only [initAcc]
          push_cast
          ring

theorem any_perm {l₁ l₂ : List NormalizedIssue} (h : l₁.Perm l₂)
    (p : NormalizedIssue → Bool) : l₁.any p = l₂.any p := by
  by_cases h1 : l₁.any p = true
  · obtain ⟨x, hx, hpx⟩ := List.any_eq_true.mp h1
    rw [h1, (List.any_eq_true.mpr ⟨x, h.subset hx, hpx⟩)]
  · have h1' : l₁.any p = false := by revert h1; cases l₁.any p <;> simp
    have h2' : l₂.any p = false := by
      by_contra hc
      have hc' : l₂.any p = true := by revert hc; cases l₂.any p <;> simp
      obtain ⟨x, hx, hpx⟩ := List.any_eq_true.mp hc'
      exact h1 (List.any_eq_true.mpr ⟨x, h.symm.subset hx, hpx⟩)
    rw [h1', h2']

theorem quadOf_perm {r₁ r₂ : List NormalizedIssue} (h : r₁.Perm r₂) :
    quadOf r₁ = quadOf r₂ := by
  have hlen := h.length_eq
  have hcs : commentsSum r₁ = commentsSum r₂ := by
    show (r₁.map (fun i => toIntJ i.comments_count)).sum =
      (r₂.map (fun i => toIntJ i.comments_count)).sum
    exact (h.map _).sum_eq
  have hfin : (labelKeys r₁).toFinset = (labelKeys r₂).toFinset := by
    ext x
    simp only [labelKeys, List.mem_toFinset, List.mem_map, List.mem_filter,
      List.mem_flatMap, h.mem_iff]
  have ha := h.countP_eq (fun i => i.has_assignee)
  have hm := h.countP_eq (fun i => truthy i.milestone)
  simp [quadOf, hlen, hcs, hfin, ha, hm]

/-- The issue list used by the C5 counterexample: same contributor,
null `updated_at` first. -/
def cexA : NormalizedIssue :=
  { issue_id := .null, issue_number := .null, title := .str "t",
    state := .str "open", created_at := .null, updated_at := .null,
    comments_count := .num 0, labels := [], contributor_login := .str "u",
    contributor_id := .null, contributor_type := .null,
    contributor_url := .null, contributor_avatar := .null, body_length := 0,
    has_assignee := false, milestone := .null }

/-- Second counterexample issue: same contributor, string timestamp. -/
def cexB : NormalizedIssue :=
  { cexA with updated_at := .str "2023-01-01T00:00:00Z" }

/-- C5 (counterexample): the two orders of the same two issues do not
yield the same contributor statistics — with the null-timestamp issue
first, the aggregator's `updated_at > latest_activity` comparison
raises an uncaught `TypeError` and nothing is emitted, while the
reverse order succeeds. -/
theorem C5_counterexample_order_dependent :
    [cexA, cexB].Perm [cexB, cexA] ∧
    summaryView [cexA, cexB] (JVal.str "u") = none ∧
    (summaryView [cexB, cexA] (JVal.str "u")).isSome = true ∧
    summaryView [cexA, cexB] (JVal.str "u") ≠
      summaryView [cexB, cexA] (JVal.str "u") := by
  refine ⟨List.Perm.swap _ _ _, rfl, rfl, ?_⟩
  intro hcon
  have h1 : summaryView [cexA, cexB] (JVal.str "u") = none := rfl
  have h2 : (summaryView [cexB, cexA] (JVal.str "u")).isSome = true := rfl
  rw [hcon] at h1
  rw [h1] at h2
  simp at h2

/-- C5 (amended): provided every issue's `updated_at` is a string, the
aggregation is commutative with respect to issue order — for every
permutation and every login, the emitted `total_issues`,
`total_comments`, `labels_count` and `contribution_score` (observed
through `summaryView`) coincide. -/
theorem C5_aggregation_commutative (l₁ l₂ : List NormalizedIssue)
    (hp : l₁.Perm l₂)
    (hupd : ∀ i ∈ l₁, ∃ s, i.updated_at = JVal.str s) (login : JVal) :
    summaryView l₁ login = summaryView l₂ login := by
  have hupd₂ : ∀ i ∈ l₂, ∃ s, i.updated_at = JVal.str s :=
    fun i hi => hupd i (hp.mem_iff.mpr hi)
  rw [summaryView_char l₁ login hupd, summaryView_char l₂ login hupd₂]
  have hany : l₁.any badIssueB = l₂.any badIssueB := any_perm hp badIssueB
  have hrelp : (relOf login l₁).Perm (relOf login l₂) := hp.filter _
  rw [hany]
  by_cases hb : l₂.any badIssueB = true
  · rw [if_pos hb, if_pos hb]
  · rw [if_neg hb, if_neg hb]
    by_cases he : (relOf login l₂).isEmpty = true
    · have he₁ : (relOf login l₁).isEmpty = true := by
        rw [List.isEmpty_iff] at he ⊢
        rw [he] at hrelp
        exact hrelp.eq_nil
      rw [if_pos he, if_pos he₁]
    · have he₁ : ¬((relOf login l₁).isEmpty = true) := by
        intro hc
        apply he
        rw [List.isEmpty_iff] at hc ⊢
        rw [hc] at hrelp
        exact hrelp.symm.eq_nil
      rw [if_neg he, if_neg he₁, quadOf_perm hrelp]

/-- Closed witness for C5 at two string-timestamped issues. -/
theorem C5_witness :
    summaryView [cexB, cexB] (JVal.str "u") =
      summaryView [cexB, cexB] (JVal.str "u") :=
  C5_aggregation_commutative [cexB, cexB] [cexB, cexB] (List.Perm.refl _)
    (by
      intro i hi
      simp only [List.mem_cons, List.not_mem_nil, or_false] at hi
      rcases hi with rfl | rfl <;>
        exact ⟨"2023-01-01T00:00:00Z", rfl⟩)
    (JVal.str "u")

instance : Inhabited ContributorSummary :=
  ⟨{ contributor_login := .null, contributor_id := .null,
     contributor_type := .null, contributor_url := .null,
     contributor_avatar := .null, total_issues := 0, total_comments := 0,
     issues_with_assignee := 0, issues_with_milestone := 0,
     latest_activity := .null, avg_body_length := 0, labels_count := 0,
     unique_labels := [], contribution_score := 0 }⟩

/-- The summaries a consumer of `top_contributors_resource` receives:
none at all when the accumulation pass raises. -/
def emittedSummaries (issues : List NormalizedIssue) : List ContributorSummary :=
  match top_contributors_resource issues with
  | .ok ss => ss
  | .error _ => []

/-- C6: when every consumed issue carries a non-empty string
timestamp, each emitted summary's `latest_activity` is the
lexicographic maximum of that contributor's `updated_at` values (the
accumulator starts from the first occurrence and advances on strict
`>`). -/
theorem C6_latest_activity (issues : List NormalizedIssue)
    (ss : List ContributorSummary) (s : ContributorSummary)
    (hupd : ∀ i ∈ issues, ∃ t, i.updated_at = JVal.str t ∧ t ≠ "")
    (hok : top_contributors_resource issues = .ok ss) (hs : s ∈ ss) :
    s.latest_activity =
      JVal.str (lexMax ((relOf s.contributor_login issues).map updStr)) := by
  have hupd' : ∀ i ∈ issues, ∃ t, i.updated_at = JVal.str t :=
    fun i hi => ⟨(hupd i hi).choose, (hupd i hi).choose_spec.1⟩
  rw [top_contributors_resource] at hok
  cases haggr : aggregate issues with
  | error e => rw [haggr] at hok; exact absurd hok (by simp)
  | ok m =>
  rw [haggr] at hok
  injection hok with hok
  subst hok
  obtain ⟨hminv, hspec⟩ := foldl_agg_spec hupd' MapInv_nil haggr
  obtain ⟨p, hpf, rfl⟩ := List.mem_map.mp hs
  have hpm : p ∈ m := List.mem_filter.mp hpf |>.1
  have hself := lookupAcc_self hminv p hpm
  have hsl := hspec p.1
  rw [hself] at hsl
  have hsl2 : ∃ first rest, relOf p.1 issues = first :: rest ∧
      AccSpec (relOf p.1 issues) (initAcc first) p.2 := hsl
  obtain ⟨first, rest, hrel, hacc⟩ := hsl2
  have hfirst_mem : first ∈ issues := by
    have : first ∈ relOf p.1 issues := by rw [hrel]; simp
    exact (List.mem_filter.mp this).1
  obtain ⟨u, hu⟩ := hupd' first hfirst_mem
  have hlatest := hacc.2.2.2.2.2.2 u (by simp [initAcc, hu])
  have hlogin : (finalizeAcc p.2).contributor_login = p.1 :=
    (hminv.1 p hpm).2.2.1
  have hfin_lat : (finalizeAcc p.2).latest_activity = p.2.latest_activity := rfl
  rw [hfin_lat, hlatest, hlogin, hrel]
  have hustr : updStr first = u := by rw [updStr, hu]
  simp only [List.map_cons, lexMax, hustr]
  rw [List.foldl_cons, max_self]

/-- C7: every emitted contributor summary's `contribution_score` is
exactly `total_issues * 2 + total_comments * 1 +
issues_with_assignee * 0.5 + issues_with_milestone * 0.5` over its
own accumulated counts. -/
theorem C7_contribution_score (issues : List NormalizedIssue)
    (ss : List ContributorSummary) (s : ContributorSummary)
    (hok : top_contributors_resource issues = .ok ss) (hs : s ∈ ss) :
    s.contribution_score =
      (s.total_issues : ℚ) * 2 + (s.total_comments : ℚ) * 1 +
        (s.issues_with_assignee : ℚ) * (0.5 : ℚ) +
        (s.issues_with_milestone : ℚ) * (0.5 : ℚ) := by
  rw [top_contributors_resource] at hok
  cases haggr : aggregate issues with
  | error e => rw [haggr] at hok; exact absurd hok (by simp)
  | ok m =>
  rw [haggr] at hok
  injection hok with hok
  subst hok
  obtain ⟨p, hp, rfl⟩ := List.mem_map.mp hs
  rfl

/-- Closed witness for C6 on a single string-timestamped issue. -/
theorem C6_witness :
    ((emittedSummaries [cexB]).head!).latest_activity =
      JVal.str (lexMax
        ((relOf ((emittedSummaries [cexB]).head!).contributor_login
          [cexB]).map updStr)) := by
  cases hx : top_contributors_resource [cexB] with
  | error e =>
      have hlen : (emittedSummaries [cexB]).length = 1 := rfl
      simp [emittedSummaries, hx] at hlen
  | ok ss =>
      have he : emittedSummaries [cexB] = ss := by
        rw [emittedSummaries, hx]
      cases ss with
      | nil =>
          have hlen : (emittedSummaries [cexB]).length = 1 := rfl
          rw [he] at hlen
          simp at hlen
      | cons s rest =>
          rw [he]
          have h := C6_latest_activity [cexB] (s :: rest) s
            (by
              intro i hi
              simp only [List.mem_cons, List.not_mem_nil, or_false] at hi
              subst hi
              exact ⟨"2023-01-01T00:00:00Z", rfl, by simp⟩)
            hx (List.mem_cons_self s rest)
          simpa using h

/-- Closed witness for C7 on a single issue. -/
theorem C7_witness :
    ((emittedSummaries [cexB]).head!).contribution_score =
      (((emittedSummaries [cexB]).head!).total_issues : ℚ) * 2 +
        (((emittedSummaries [cexB]).head!).total_comments : ℚ) * 1 +
        (((emittedSummaries [cexB]).head!).issues_with_assignee : ℚ) * (0.5 : ℚ) +
        (((emittedSummaries [cexB]).head!).issues_with_milestone : ℚ) * (0.5 : ℚ) := by
  cases hx : top_contributors_resource [cexB] with
  | error e =>
      have hlen : (emittedSummaries [cexB]).length = 1 := rfl
      simp [emittedSummaries, hx] at hlen
  | ok ss =>
      have he : emittedSummaries [cexB] = ss := by
        rw [emittedSummaries, hx]
      cases ss with
      | nil =>
          have hlen : (emittedSummaries [cexB]).length = 1 := rfl
          rw [he] at hlen
          simp at hlen
      | cons s rest =>
          rw [he]
          have h := C7_contribution_score [cexB] (s :: rest) s hx
            (List.mem_cons_self s rest)
          simpa using h
